import Mathlib

/-!
# The content renderer of the blog client (`src/public/script.js`)

A shallow embedding of `parseContent` (lines 588-711) and `escapeHtml`
(lines 713-717), followed by the properties the specification states
about them.

JavaScript strings are modelled as lists of characters.  Every character
the renderer tests for (backtick, number sign, hyphen, asterisk, digits,
period, the white space set, the line terminators, the characters the
serialiser escapes) lies in the Basic Multilingual Plane, and every string
operation used is character-wise, so the code-unit view and the character
view agree on all of them.
-/

namespace Blog

/-- A JavaScript string. -/
abbrev Str := List Char

/-! ## Character classes of ECMAScript -/

/-- ECMAScript `LineTerminator`: LF, CR, LS, PS.  The regular expression
atom `.` (without the `s` flag) matches every character but these. -/
def isLineTerminator (c : Char) : Bool :=
  c == '\n' || c == '\r' || c == '\u2028' || c == '\u2029'

/-- The characters removed by `String.prototype.trim` and matched by `\s`:
ECMAScript `WhiteSpace` (TAB, VT, FF, SP, NBSP, ZWNBSP and the Unicode
space separators) together with `LineTerminator`. -/
def isWhiteSpace (c : Char) : Bool :=
  c == '\t' || c == '\x0b' || c == '\x0c' || c == ' ' || c == '\u00a0' ||
  c == '\ufeff' || c == '\u1680' || (0x2000 ≤ c.toNat && c.toNat ≤ 0x200a) ||
  c == '\u202f' || c == '\u205f' || c == '\u3000' || isLineTerminator c

/-- The class `\d` (no `u`/`i` flags): the ten ASCII digits. -/
def isDigit (c : Char) : Bool := 48 ≤ c.toNat && c.toNat ≤ 57

/-! ## String primitives -/

/-- `s.trim()`: strip white space and line terminators from both ends. -/
def trim (s : Str) : Str := (s.dropWhile isWhiteSpace).rdropWhile isWhiteSpace

/-- `s.startsWith(p)`. -/
def startsWith (s p : Str) : Bool := p.isPrefixOf s

/-- `xs.join(sep)`. -/
def join (sep : Str) (xs : List Str) : Str := sep.intercalate xs

/-- `content.replace(/\r\n/g, "\n")`: a left-to-right scan replacing every
CR LF pair by LF; replaced text is not scanned again. -/
def replaceCRLF : Str → Str
  | [] => []
  | [c] => [c]
  | c :: d :: r =>
    if c = '\r' ∧ d = '\n' then '\n' :: replaceCRLF r else c :: replaceCRLF (d :: r)

/-- `s.split("\n")`: the pieces between line feeds; the empty string splits
into one empty piece. -/
def splitLines : Str → List Str
  | [] => [[]]
  | c :: r =>
    if c = '\n' then [] :: splitLines r
    else
      match splitLines r with
      | l :: ls => (c :: l) :: ls
      | [] => [[c]]

/-- The line stream of line 589: `content.replace(/\r\n/g, "\n").split("\n")`. -/
def lines (content : Str) : List Str := splitLines (replaceCRLF content)

/-! ## `escapeHtml` (lines 713-717)

The source assigns the text to `textContent` of a fresh `div` and reads
`innerHTML` back.  The assignment makes the text the data of a single text
node (no node for the empty string); reading `innerHTML` runs the HTML
fragment serialisation algorithm, which for a text node child of a `div`
emits its data "escaped" outside attribute mode: `&` becomes `&amp;`,
U+00A0 becomes `&nbsp;`, `<` becomes `&lt;`, `>` becomes `&gt;`, and no other
character is changed (the quotation mark is replaced in attribute mode
only, the apostrophe never). -/

/-- The serialiser's escaping of one character of a text node. -/
def escapeChar (c : Char) : Str :=
  if c = '&' then "&amp;".toList
  else if c = '\u00a0' then "&nbsp;".toList
  else if c = '<' then "&lt;".toList
  else if c = '>' then "&gt;".toList
  else [c]

/-- The method `escapeHtml(text)`. -/
def escapeHtml (text : Str) : Str := text.flatMap escapeChar

/-! ## The three regular expressions

Each matcher follows the backtracking order of the ECMAScript matcher:
greedy quantifiers try the longest repetition first and give characters
back one at a time. -/

/-- The tail `(.*)$` matched at the start of `s`.  Greedy `.*` consumes the
longest run of characters that are not line terminators, and `$` (no `m`
flag) holds at the end of the input only; a shorter repetition leaves a
character before the end, so the tail matches exactly when `s` holds no
line terminator, and then the group captures all of `s`. -/
def dotStarEnd (s : Str) : Option Str :=
  if s.all (fun c => !isLineTerminator c) then some s else none

/-- The tail `\s+(.*)$` matched at the start of the argument; the result
is the text captured by the group.  After one white space character the
matcher first tries to extend `\s+`, and only if the rest then fails does
it hand the remaining text to `(.*)$`. -/
def wsRest : Str → Option Str
  | [] => none
  | c :: r =>
    if isWhiteSpace c then
      match wsRest r with
      | some t => some t
      | none => dotStarEnd r
    else none

/-- Consume exactly `j` number signs at the start of `s`. -/
def hashes (j : Nat) (s : Str) : Option Str :=
  if (List.replicate j '#').isPrefixOf s then some (s.drop j) else none

/-- One attempt of `/^(#{1,3})\s+(.*)$/` with the first group of length `j`:
the pair of `hMatch[1].length` and `hMatch[2]`. -/
def hMatchWith (j : Nat) (s : Str) : Option (Nat × Str) :=
  match hashes j s with
  | some r =>
    match wsRest r with
    | some t => some (j, t)
    | none => none
  | none => none

/-- The call `trimmed.match(/^(#{1,3})\s+(.*)$/)` (line 652): `none` for
`null`, otherwise the length of group 1 and the text of group 2.  The
greedy `#{1,3}` tries three, then two, then one number sign. -/
def hMatch (s : Str) : Option (Nat × Str) :=
  match hMatchWith 3 s with
  | some m => some m
  | none =>
    match hMatchWith 2 s with
    | some m => some m
    | none => hMatchWith 1 s

/-- The call `trimmed.match(/^[-*]\s+(.*)$/)` (line 668): `none` for `null`,
otherwise the text of group 1. -/
def ulMatch : Str → Option Str
  | [] => none
  | c :: r => if c == '-' || c == '*' then wsRest r else none

/-- The part `\.\s+(.*)$` matched at the start of the argument. -/
def dotWsRest : Str → Option Str
  | [] => none
  | c :: r => if c == '.' then wsRest r else none

/-- The part `\d+\.\s+(.*)$` matched at the start of the argument: after one
digit the matcher first tries to extend `\d+`, and only if the rest then
fails does it expect the period. -/
def digitsDot : Str → Option Str
  | [] => none
  | c :: r =>
    if isDigit c then
      match digitsDot r with
      | some t => some t
      | none => dotWsRest r
    else none

/-- The call `trimmed.match(/^\d+\.\s+(.*)$/)` (line 683): `none` for `null`,
otherwise the text of group 1. -/
def olMatch (s : Str) : Option Str := digitsDot s

/-! ## The state of the loop and its fragments -/

/-- The mutable variables of `parseContent` (lines 590-598). -/
structure State where
  /-- The array `out` of emitted fragments, in emission order. -/
  out : List Str
  inCode : Bool
  codeLang : Str
  codeBuf : List Str
  paraBuf : List Str
  inUl : Bool
  inOl : Bool
deriving DecidableEq

/-- The values of lines 590-598 before the loop. -/
def initState : State :=
  { out := [], inCode := false, codeLang := "text".toList, codeBuf := [],
    paraBuf := [], inUl := false, inOl := false }

/-- The fence delimiter. -/
def fence : Str := "```".toList

/-- The template literal of line 603 around the joined paragraph lines. -/
def paraFrag (html : Str) : Str :=
  "<p class=\"my-3\">".toList ++ html ++ "</p>".toList

/-- The paragraph fragment of lines 602-603: every buffered line escaped on
its own, the results joined by `<br>`. -/
def paraHtml (buf : List Str) : Str :=
  paraFrag (join "<br>".toList (buf.map escapeHtml))

/-- The template literal of lines 630 and 706 around the two inserted texts. -/
def codeFrag (lang body : Str) : Str :=
  "<pre class=\"my-4 rounded-lg overflow-auto\"><code class=\"language-".toList ++
    lang ++ "\">".toList ++ body ++ "</code></pre>".toList

/-- The code fragment of lines 630 and 706. -/
def codeHtml (codeLang : Str) (codeBuf : List Str) : Str :=
  codeFrag (escapeHtml codeLang) (escapeHtml (join "\n".toList codeBuf))

/-- The class chosen from the level (lines 658-663). -/
def headingClass (level : Nat) : Str :=
  if level = 1 then "text-2xl font-bold mt-6 mb-2".toList
  else if level = 2 then "text-xl font-bold mt-5 mb-2".toList
  else "text-lg font-semibold mt-4 mb-2".toList

/-- The template literal of line 664 around the inserted text; the level is
printed in decimal. -/
def headingFrag (level : Nat) (text : Str) : Str :=
  "<h".toList ++ Nat.toDigits 10 level ++ " class=\"".toList ++ headingClass level ++
    "\">".toList ++ text ++ "</h".toList ++ Nat.toDigits 10 level ++ ">".toList

/-- The heading fragment of lines 656-664; `text` is the captured group. -/
def headingHtml (level : Nat) (text : Str) : Str := headingFrag level (escapeHtml text)

/-- The template literal of lines 679 and 694 around the inserted text. -/
def liFrag (text : Str) : Str := "<li>".toList ++ text ++ "</li>".toList

/-- The list item fragment of lines 679 and 694. -/
def liHtml (text : Str) : Str := liFrag (escapeHtml text)

/-- The unordered list start tag (line 676). -/
def ulOpen : Str := "<ul class=\"list-disc pl-6 my-3 space-y-1\">".toList

/-- The ordered list start tag (line 691). -/
def olOpen : Str := "<ol class=\"list-decimal pl-6 my-3 space-y-1\">".toList

/-- The unordered list end tag. -/
def ulClose : Str := "</ul>".toList

/-- The ordered list end tag. -/
def olClose : Str := "</ol>".toList

/-- The closure `flushPara` (lines 600-605). -/
def flushPara (st : State) : State :=
  if st.paraBuf.length = 0 then st
  else { st with out := st.out ++ [paraHtml st.paraBuf], paraBuf := [] }

/-- The first conditional of `closeLists` (lines 608-611), also lines 686-689. -/
def closeUl (st : State) : State :=
  if st.inUl then { st with out := st.out ++ [ulClose], inUl := false } else st

/-- The second conditional of `closeLists` (lines 612-615), also lines 671-674. -/
def closeOl (st : State) : State :=
  if st.inOl then { st with out := st.out ++ [olClose], inOl := false } else st

/-- The closure `closeLists` (lines 607-616). -/
def closeLists (st : State) : State := closeOl (closeUl st)

/-- The conditional of lines 675-678. -/
def openUl (st : State) : State :=
  if !st.inUl then { st with out := st.out ++ [ulOpen], inUl := true } else st

/-- The conditional of lines 690-693. -/
def openOl (st : State) : State :=
  if !st.inOl then { st with out := st.out ++ [olOpen], inOl := true } else st

/-- Append one fragment: `out.push(f)`. -/
def push (st : State) (f : Str) : State := { st with out := st.out ++ [f] }

/-- The value `line.slice(3).trim() || "text"` of line 626. -/
def langOf (line : Str) : Str :=
  if trim (line.drop 3) = [] then "text".toList else trim (line.drop 3)

/-- One iteration of the loop body (lines 619-698) on `line`. -/
def step (st : State) (line : Str) : State :=
  if startsWith line fence then
    if !st.inCode then
      let st1 := closeLists (flushPara st)
      { st1 with inCode := true, codeLang := langOf line, codeBuf := [] }
    else
      { push st (codeHtml st.codeLang st.codeBuf) with
        inCode := false, codeBuf := [], codeLang := "text".toList }
  else if st.inCode then
    { st with codeBuf := st.codeBuf ++ [line] }
  else
    let trimmed := trim line
    if trimmed = [] then closeLists (flushPara st)
    else
      match hMatch trimmed with
      | some (level, text) => push (closeLists (flushPara st)) (headingHtml level text)
      | none =>
        match ulMatch trimmed with
        | some text => push (openUl (closeOl (flushPara st))) (liHtml text)
        | none =>
          match olMatch trimmed with
          | some text => push (openOl (closeUl (flushPara st))) (liHtml text)
          | none => { st with paraBuf := st.paraBuf ++ [line] }

/-- The code after the loop (lines 701-708). -/
def finish (st : State) : State :=
  if !st.inCode then closeLists (flushPara st)
  else push st (codeHtml st.codeLang st.codeBuf)

/-- The state after the loop has consumed the given lines. -/
def runLines (ls : List Str) : State := ls.foldl step initState

/-- The array `out` when `parseContent(content)` reaches line 710. -/
def fragments (content : Str) : List Str := (finish (runLines (lines content))).out

/-- The function `parseContent(content)`: `out.join("")`. -/
def parseContent (content : Str) : Str := (fragments content).flatten

/-! ## The match arrays of the regular expressions

The three expressions of the loop body are sequences of quantified
character classes between `^` and `$`.  The matcher below is the
backtracking matcher of ECMAScript restricted to such sequences: every
quantifier is greedy, tries its longest repetition first and gives
characters back one at a time, and a capture group holds `undefined` until
its atom has matched. -/

/-- The array returned by `String.prototype.match`: entry 0 is the matched
text, entry `i` the text captured by group `i`, `none` for `undefined`. -/
abbrev MatchArray := List (Option Str)

/-- One quantified character class: the class, the least and the greatest
number of repetitions (`none`: unbounded), and the number of the capture
group around it, if any. -/
structure Atom where
  cls : Char → Bool
  min : Nat
  max : Option Nat
  group : Option Nat

/-- Record the text captured by a group. -/
def setGroup (g : Option Nat) (text : Str) (caps : MatchArray) : MatchArray :=
  match g with
  | none => caps
  | some i => caps.set i (some text)

/-- The longest repetition the atom can take at the start of `s`. -/
def longest (a : Atom) (s : Str) : Nat :=
  match a.max with
  | none => (s.takeWhile a.cls).length
  | some m => Nat.min (s.takeWhile a.cls).length m

/-- The atom taking `k` characters, then `k - 1`, down to its least number,
each time handing the rest to the continuation; the first success wins. -/
def backtrack (a : Atom) (cont : Str → MatchArray → Option MatchArray) (s : Str)
    (caps : MatchArray) : Nat → Option MatchArray
  | 0 => if a.min = 0 then cont s (setGroup a.group [] caps) else none
  | k + 1 =>
    if a.min ≤ k + 1 then
      match cont (s.drop (k + 1)) (setGroup a.group (s.take (k + 1)) caps) with
      | some m => some m
      | none => backtrack a cont s caps k
    else none

/-- The atoms in sequence, followed by `$`. -/
def matchAtoms : List Atom → Str → MatchArray → Option MatchArray
  | [], s, caps => if s = [] then some caps else none
  | a :: rest, s, caps => backtrack a (matchAtoms rest) s caps (longest a s)

/-- The call `s.match(/^...$/)` for a sequence of atoms with the given number
of groups: `none` for `null`. -/
def regexMatch (atoms : List Atom) (groups : Nat) (s : Str) : Option MatchArray :=
  matchAtoms atoms s (some s :: List.replicate groups none)

/-- The atom `\s+`. -/
def wsAtom : Atom := { cls := isWhiteSpace, min := 1, max := none, group := none }

/-- The atom `(.*)` as group `g`. -/
def dotAtom (g : Nat) : Atom :=
  { cls := fun c => !isLineTerminator c, min := 0, max := none, group := some g }

/-- The expression `/^(#{1,3})\s+(.*)$/` of line 652. -/
def headingRegex : List Atom :=
  [{ cls := fun c => c == '#', min := 1, max := some 3, group := some 1 }, wsAtom, dotAtom 2]

/-- The expression `/^[-*]\s+(.*)$/` of line 668. -/
def ulRegex : List Atom :=
  [{ cls := fun c => c == '-' || c == '*', min := 1, max := some 1, group := none }, wsAtom,
    dotAtom 1]

/-- The expression `/^\d+\.\s+(.*)$/` of line 683. -/
def olRegex : List Atom :=
  [{ cls := isDigit, min := 1, max := none, group := none },
    { cls := fun c => c == '.', min := 1, max := some 1, group := none }, wsAtom, dotAtom 1]

/-- The read `m[i]` of a match array: `none` when the entry is `undefined`
or lies outside the array. -/
def readGroup (m : MatchArray) (i : Nat) : Option Str :=
  match m[i]? with
  | some (some t) => some t
  | _ => none

/-- One iteration of the loop body (lines 619-698) as written, with the match
arrays and the reads of their entries made explicit: `hMatch[1]`,
`hMatch[2]`, `ulMatch[1]` and `olMatch[1]` are array reads, and the result is
`none` when one of them yields `undefined` (`hMatch[1].length` would then
throw, and the other reads would pass `undefined` on as text). -/
def stepChecked (st : State) (line : Str) : Option State :=
  if startsWith line fence then
    if !st.inCode then
      let st1 := closeLists (flushPara st)
      some { st1 with inCode := true, codeLang := langOf line, codeBuf := [] }
    else
      some { push st (codeHtml st.codeLang st.codeBuf) with
        inCode := false, codeBuf := [], codeLang := "text".toList }
  else if st.inCode then
    some { st with codeBuf := st.codeBuf ++ [line] }
  else
    let trimmed := trim line
    if trimmed = [] then some (closeLists (flushPara st))
    else
      match regexMatch headingRegex 2 trimmed with
      | some hm =>
        match readGroup hm 1, readGroup hm 2 with
        | some g1, some g2 =>
          some (push (closeLists (flushPara st)) (headingHtml g1.length g2))
        | _, _ => none
      | none =>
        match regexMatch ulRegex 1 trimmed with
        | some um =>
          match readGroup um 1 with
          | some g => some (push (openUl (closeOl (flushPara st))) (liHtml g))
          | none => none
        | none =>
          match regexMatch olRegex 1 trimmed with
          | some om =>
            match readGroup om 1 with
            | some g => some (push (openOl (closeUl (flushPara st))) (liHtml g))
            | none => none
          | none => some { st with paraBuf := st.paraBuf ++ [line] }

/-- The loop of lines 618-699 by index, as written: `lines[i]` is an array
read, which yields `undefined` outside the array, and the first use of the
line (`line.startsWith`) would then throw; that outcome is `none`, and so is
a failed read inside the loop body. -/
def forLoop (ls : List Str) (i : Nat) (st : State) : Option State :=
  if i < ls.length then
    match ls[i]? with
    | none => none
    | some line =>
      match stepChecked st line with
      | none => none
      | some st1 => forLoop ls (i + 1) st1
  else some st
termination_by ls.length - i

/-- The function `parseContent` with the loop run by index and every array
read checked; `none` stands for a thrown exception or a use of `undefined`. -/
def parseContentLoop (content : Str) : Option Str :=
  match forLoop (lines content) 0 initState with
  | none => none
  | some st => some (finish st).out.flatten

/-! ## Notions used in the statements -/

/-- The quotation mark U+0022. -/
def quot : Char := Char.ofNat 34

/-- The apostrophe U+0027. -/
def apos : Char := Char.ofNat 39

/-- The entities the escaping can produce. -/
def entities : List Str :=
  ["&amp;".toList, "&nbsp;".toList, "&lt;".toList, "&gt;".toList]

/-- Every ampersand of `s` begins an entity: whatever precedes it, the text
from the ampersand on starts with one of the entities. -/
def AmpBeginsEntity (s : Str) : Prop :=
  ∀ pre post : Str, s = pre ++ '&' :: post → ∃ e ∈ entities, e <+: '&' :: post

/-- Escaped text: no raw `<`, no raw `>`, and every `&` begins an entity. -/
def SafeText (s : Str) : Prop := '<' ∉ s ∧ '>' ∉ s ∧ AmpBeginsEntity s

/-- Text without a raw quotation mark or apostrophe. -/
def QuoteFree (s : Str) : Prop := quot ∉ s ∧ apos ∉ s

/-- The fragments the renderer can emit, as fixed structural markup around
inserted texts; `P` is what is required of every inserted text (the
paragraph lines, the language tag inside the class attribute, the code
body, the heading text, the list item text). -/
inductive Emitted (P : Str → Prop) : Str → Prop
  | para (parts : List Str) (h : ∀ t ∈ parts, P t) :
      Emitted P (paraFrag (join "<br>".toList parts))
  | code (lang body : Str) (hl : P lang) (hb : P body) : Emitted P (codeFrag lang body)
  | heading (level : Nat) (text : Str) (hk : 1 ≤ level ∧ level ≤ 3) (ht : P text) :
      Emitted P (headingFrag level text)
  | li (text : Str) (ht : P text) : Emitted P (liFrag text)
  | ulOpen : Emitted P ulOpen
  | olOpen : Emitted P olOpen
  | ulClose : Emitted P ulClose
  | olClose : Emitted P olClose

/-- All fragments of a state have an emitted shape. -/
def AllEmitted (P : Str → Prop) (st : State) : Prop := ∀ f ∈ st.out, Emitted P f

/-- The invariant of the loop: inside a fence no paragraph is buffered and
no list is open, outside a fence the code buffer is empty, and the two
lists are never open together. -/
def Consistent (st : State) : Prop :=
  (st.inCode = true → st.paraBuf = [] ∧ st.inUl = false ∧ st.inOl = false) ∧
    (st.inCode = false → st.codeBuf = []) ∧ (st.inUl = true → st.inOl = false)

/-- The backtick U+0060. -/
def backtick : Char := Char.ofNat 96

/-- The words of the heading rule: one to three number signs followed by
white space and text. -/
def HeadingShape (s : Str) : Prop :=
  ∃ (k : Nat) (ws t : Str), 1 ≤ k ∧ k ≤ 3 ∧ ws ≠ [] ∧ (∀ c ∈ ws, isWhiteSpace c = true) ∧
    s = List.replicate k '#' ++ ws ++ t

/-- The words of the unordered list rule: the trimmed line is a marker `-`
or `*`, white space, then the text `t`. -/
def UlShape (line t : Str) : Prop :=
  ∃ (m : Char) (ws : Str), (m = '-' ∨ m = '*') ∧ ws ≠ [] ∧ (∀ c ∈ ws, isWhiteSpace c = true) ∧
    trim line = m :: ws ++ t

/-- The words of the ordered list rule: the trimmed line is one or more
digits, a period, white space, then the text `t`. -/
def OlShape (line t : Str) : Prop :=
  ∃ (ds ws : Str), ds ≠ [] ∧ (∀ c ∈ ds, isDigit c = true) ∧ ws ≠ [] ∧
    (∀ c ∈ ws, isWhiteSpace c = true) ∧ trim line = ds ++ '.' :: ws ++ t

/-- An item text: what follows the white space (it does not start with
white space itself), holding no line terminator. -/
def ItemText (t : Str) : Prop :=
  (∀ c ∈ t.head?, isWhiteSpace c = false) ∧ ∀ c ∈ t, isLineTerminator c = false

instance (t : Str) : Decidable (ItemText t) := by
  unfold ItemText
  infer_instance

/-- A plain line: not blank, not starting with the fence delimiter, and
matched by none of the heading and list expressions. -/
def PlainLine (l : Str) : Prop :=
  trim l ≠ [] ∧ startsWith l fence = false ∧ hMatch (trim l) = none ∧
    ulMatch (trim l) = none ∧ olMatch (trim l) = none

instance (l : Str) : Decidable (PlainLine l) := by
  unfold PlainLine
  infer_instance

/-- The second state has the fragments of the first and possibly more
after them: the array `out` only grows. -/
def OutGrows (a b : State) : Prop := ∃ more : List Str, b.out = a.out ++ more

/-- The line is dispatched to the unordered list rule with captured text `t`. -/
def UlItem (l t : Str) : Prop :=
  startsWith l fence = false ∧ trim l ≠ [] ∧ hMatch (trim l) = none ∧
    ulMatch (trim l) = some t

/-- The line is dispatched to the ordered list rule with captured text `t`. -/
def OlItem (l t : Str) : Prop :=
  startsWith l fence = false ∧ trim l ≠ [] ∧ hMatch (trim l) = none ∧
    ulMatch (trim l) = none ∧ olMatch (trim l) = some t

/-- The state with the given fragments put before its own. -/
def prependOut (pre : List Str) (st : State) : State := { st with out := pre ++ st.out }

/-- The list that is open at a point of the fragment sequence. -/
inductive OpenList where
  | closed
  | ul
  | ol
deriving DecidableEq

/-- The fragment is a list item: it starts with `<li>`. -/
def isLi (f : Str) : Bool := "<li>".toList.isPrefixOf f

/-- Reading one fragment with a view to the list tags: a list start tag
needs no list open and opens its list, a list end tag needs its own list
open and closes it, a list item needs some list open, every other fragment
is passed over; `none` when the need is not met. -/
def scanFragment (o : OpenList) (f : Str) : Option OpenList :=
  if f = ulOpen then (if o = OpenList.closed then some OpenList.ul else none)
  else if f = olOpen then (if o = OpenList.closed then some OpenList.ol else none)
  else if f = ulClose then (if o = OpenList.ul then some OpenList.closed else none)
  else if f = olClose then (if o = OpenList.ol then some OpenList.closed else none)
  else if isLi f then (if o = OpenList.closed then none else some o)
  else some o

/-- Reading a sequence of fragments from left to right. -/
def scanFragments : OpenList → List Str → Option OpenList
  | o, [] => some o
  | o, f :: fs =>
    match scanFragment o f with
    | some o1 => scanFragments o1 fs
    | none => none

/-- The list tags of a fragment sequence are balanced: read from the
start with no list open, every start tag comes when no list is open, every
end tag closes the list of its own kind that is open, every list item comes
while a list is open, and at the end no list is open. -/
def ListsBalanced (fs : List Str) : Prop :=
  scanFragments OpenList.closed fs = some OpenList.closed

instance (fs : List Str) : Decidable (ListsBalanced fs) := by
  unfold ListsBalanced
  infer_instance

/-- The number of lists open: none or one. -/
def depth : OpenList → Nat
  | OpenList.closed => 0
  | OpenList.ul => 1
  | OpenList.ol => 1

/-- The list the flags of the state say is open. -/
def openOf (st : State) : OpenList :=
  if st.inUl then OpenList.ul else if st.inOl then OpenList.ol else OpenList.closed

/-- The fragments of the state, read from the start, leave open the list
its flags say. -/
def Tracks (st : State) : Prop := scanFragments OpenList.closed st.out = some (openOf st)

/-- A repetition of one or more characters of a class, written by recursion
on the text: after one character of the class, first the longer repetition,
then the rest handed on. -/
def plusRec (p : Char → Bool) (next : Str → Option MatchArray) : Str → Option MatchArray
  | [] => none
  | c :: r =>
    if p c then
      match plusRec p next r with
      | some m => some m
      | none => next r
    else none

/-! ## Escaping -/

theorem escapeHtml_nil : escapeHtml [] = [] := rfl

theorem escapeHtml_cons (c : Char) (t : Str) :
    escapeHtml (c :: t) = escapeChar c ++ escapeHtml t := rfl

theorem escapeHtml_append (a b : Str) :
    escapeHtml (a ++ b) = escapeHtml a ++ escapeHtml b := by
  simp [escapeHtml]

/-- The escaping of one character is an entity, or the character itself
when it is none of `&`, U+00A0, `<`, `>`. -/
theorem escapeChar_cases (c : Char) :
    escapeChar c ∈ entities ∨
      (escapeChar c = [c] ∧ c ≠ '&' ∧ c ≠ '<' ∧ c ≠ '>' ∧ c ≠ '\u00a0') := by
  unfold escapeChar entities
  by_cases h1 : c = '&'
  · simp [h1]
  by_cases h2 : c = '\u00a0'
  · simp [h2]
  by_cases h3 : c = '<'
  · simp [h3]
  by_cases h4 : c = '>'
  · simp [h4]
  right
  simp [h1, h2, h3, h4]

theorem ampBeginsEntity_nil : AmpBeginsEntity [] := by
  intro pre post h
  simp at h

theorem ampBeginsEntity_cons_of_ne {c : Char} {s : Str} (hc : c ≠ '&')
    (hs : AmpBeginsEntity s) : AmpBeginsEntity (c :: s) := by
  intro pre post h
  cases pre with
  | nil =>
    simp only [List.nil_append, List.cons.injEq] at h
    exact absurd h.1 hc
  | cons d pre1 =>
    simp only [List.cons_append, List.cons.injEq] at h
    exact hs pre1 post h.2

theorem ampBeginsEntity_amp {s : Str} (he : ∃ e ∈ entities, e <+: '&' :: s)
    (hs : AmpBeginsEntity s) : AmpBeginsEntity ('&' :: s) := by
  intro pre post h
  cases pre with
  | nil =>
    simp only [List.nil_append, List.cons.injEq, true_and] at h
    subst h
    exact he
  | cons d pre1 =>
    simp only [List.cons_append, List.cons.injEq] at h
    exact hs pre1 post h.2

theorem ampBeginsEntity_entity_append {e : Str} (he : e ∈ entities) {s : Str}
    (hs : AmpBeginsEntity s) : AmpBeginsEntity (e ++ s) := by
  have hpre : ∃ e1 ∈ entities, e1 <+: e ++ s := ⟨e, he, List.prefix_append e s⟩
  simp only [entities, List.mem_cons, List.mem_singleton, List.not_mem_nil, or_false] at he
  rcases he with rfl | rfl | rfl | rfl
  all_goals
    refine ampBeginsEntity_amp hpre ?_
    repeat (first
      | exact hs
      | refine ampBeginsEntity_cons_of_ne (by decide) ?_)

/-- The escaped text is safe: no raw `<` or `>`, every `&` begins an entity. -/
theorem escapeHtml_safeText (text : Str) : SafeText (escapeHtml text) := by
  induction text with
  | nil => exact ⟨by simp [escapeHtml], by simp [escapeHtml], ampBeginsEntity_nil⟩
  | cons c t ih =>
    obtain ⟨h1, h2, h3⟩ := ih
    rw [escapeHtml_cons]
    rcases escapeChar_cases c with he | ⟨hc, ha, hl, hg, -⟩
    · refine ⟨?_, ?_, ampBeginsEntity_entity_append he h3⟩
      · simp only [entities, List.mem_cons, List.mem_singleton, List.not_mem_nil,
          or_false] at he
        rcases he with he | he | he | he <;> rw [he] <;> simp [h1]
      · simp only [entities, List.mem_cons, List.mem_singleton, List.not_mem_nil,
          or_false] at he
        rcases he with he | he | he | he <;> rw [he] <;> simp [h2]
    · rw [hc]
      refine ⟨?_, ?_, ampBeginsEntity_cons_of_ne ha h3⟩
      · simp [h1, Ne.symm hl]
      · simp [h2, Ne.symm hg]

/-- Text without any of `&`, U+00A0, `<`, `>` is returned unchanged. -/
theorem escapeHtml_eq_self (text : Str)
    (h : ∀ c ∈ text, c ≠ '&' ∧ c ≠ '\u00a0' ∧ c ≠ '<' ∧ c ≠ '>') : escapeHtml text = text := by
  induction text with
  | nil => rfl
  | cons c t ih =>
    have hc := h c (List.mem_cons_self c t)
    rw [escapeHtml_cons, ih (fun d hd => h d (List.mem_cons_of_mem c hd))]
    simp [escapeChar, hc.1, hc.2.1, hc.2.2.1, hc.2.2.2]

/-- C2, as stated, fails: the quotation mark and the apostrophe come back
raw from `escapeHtml`. -/
theorem escapeHtml_leaves_quotes_raw :
    escapeHtml "say \"hi\", it's".toList = "say \"hi\", it's".toList ∧
      quot ∈ escapeHtml "say \"hi\", it's".toList ∧
      apos ∈ escapeHtml "say \"hi\", it's".toList := by
  decide

/-- C2, amended: `escapeHtml` maps each of `&`, `<`, `>` and U+00A0 to its
textual entity (`&amp;`, `&lt;`, `&gt;`, `&nbsp;`), character by character,
and returns text without these four characters unchanged, the quotation mark
and the apostrophe included; for every text the result contains no raw `<`
or `>`, and every `&` in it begins an entity. -/
theorem escapeHtml_three_entities (text : Str) :
    (escapeHtml "&".toList = "&amp;".toList ∧ escapeHtml "<".toList = "&lt;".toList ∧
      escapeHtml ">".toList = "&gt;".toList ∧ escapeHtml ['\u00a0'] = "&nbsp;".toList) ∧
    escapeHtml text = text.flatMap (fun c => escapeHtml [c]) ∧
    ((∀ c ∈ text, c ≠ '&' ∧ c ≠ '\u00a0' ∧ c ≠ '<' ∧ c ≠ '>') → escapeHtml text = text) ∧
    '<' ∉ escapeHtml text ∧ '>' ∉ escapeHtml text ∧ AmpBeginsEntity (escapeHtml text) := by
  refine ⟨by decide, ?_, escapeHtml_eq_self text, escapeHtml_safeText text⟩
  simp [escapeHtml]

/-- The amended C2 at a text with all five characters. -/
theorem escapeHtml_three_entities_witness :
    escapeHtml "a<b> & \"c\" 'd'".toList = "a&lt;b&gt; &amp; \"c\" 'd'".toList ∧
      escapeHtml ['x', '\u00a0', 'y'] = "x&nbsp;y".toList ∧
      '<' ∉ escapeHtml "a<b> & \"c\" 'd'".toList ∧
      escapeHtml "\"c\" 'd'".toList = "\"c\" 'd'".toList :=
  ⟨by decide, by decide, (escapeHtml_three_entities "a<b> & \"c\" 'd'".toList).2.2.2.1,
    (escapeHtml_three_entities "\"c\" 'd'".toList).2.2.1 (by decide)⟩

/-! ## Shapes of the emitted fragments -/

theorem foldl_step_induction (P : State → Prop) (hstep : ∀ st line, P st → P (step st line))
    (ls : List Str) : ∀ st, P st → P (ls.foldl step st) := by
  induction ls with
  | nil => intro st h; exact h
  | cons l ls ih => intro st h; exact ih _ (hstep st l h)

theorem hMatchWith_fst {j : Nat} {s : Str} {m : Nat × Str} (h : hMatchWith j s = some m) :
    m.1 = j := by
  unfold hMatchWith at h
  split at h
  · split at h
    · simp only [Option.some.injEq] at h
      rw [← h]
    · simp at h
  · simp at h

theorem hMatch_cases {s : Str} {m : Nat × Str} (h : hMatch s = some m) :
    hMatchWith 3 s = some m ∨ hMatchWith 2 s = some m ∨ hMatchWith 1 s = some m := by
  unfold hMatch at h
  split at h
  · next m3 h3 => left; rw [h3]; exact h
  · split at h
    · next m2 h2 => right; left; rw [h2]; exact h
    · right; right; exact h

theorem hMatch_level {s : Str} {m : Nat × Str} (h : hMatch s = some m) :
    1 ≤ m.1 ∧ m.1 ≤ 3 := by
  rcases hMatch_cases h with h | h | h <;> rw [hMatchWith_fst h] <;> decide

theorem allEmitted_push {P : Str → Prop} {st : State} {f : Str} (h : AllEmitted P st)
    (hf : Emitted P f) : AllEmitted P (push st f) := by
  intro g hg
  simp only [push, List.mem_append, List.mem_singleton] at hg
  rcases hg with hg | rfl
  · exact h g hg
  · exact hf

theorem allEmitted_flushPara {P : Str → Prop} (hP : ∀ t, P (escapeHtml t)) {st : State}
    (h : AllEmitted P st) : AllEmitted P (flushPara st) := by
  unfold flushPara
  split
  · exact h
  · refine @allEmitted_push _ st _ h (Emitted.para _ ?_)
    intro t ht
    obtain ⟨u, -, rfl⟩ := List.mem_map.mp ht
    exact hP u

theorem allEmitted_closeUl {P : Str → Prop} {st : State} (h : AllEmitted P st) :
    AllEmitted P (closeUl st) := by
  unfold closeUl
  split
  · exact @allEmitted_push _ st _ h Emitted.ulClose
  · exact h

theorem allEmitted_closeOl {P : Str → Prop} {st : State} (h : AllEmitted P st) :
    AllEmitted P (closeOl st) := by
  unfold closeOl
  split
  · exact @allEmitted_push _ st _ h Emitted.olClose
  · exact h

theorem allEmitted_openUl {P : Str → Prop} {st : State} (h : AllEmitted P st) :
    AllEmitted P (openUl st) := by
  unfold openUl
  split
  · exact @allEmitted_push _ st _ h Emitted.ulOpen
  · exact h

theorem allEmitted_openOl {P : Str → Prop} {st : State} (h : AllEmitted P st) :
    AllEmitted P (openOl st) := by
  unfold openOl
  split
  · exact @allEmitted_push _ st _ h Emitted.olOpen
  · exact h

theorem allEmitted_closeLists {P : Str → Prop} {st : State} (h : AllEmitted P st) :
    AllEmitted P (closeLists st) :=
  allEmitted_closeOl (allEmitted_closeUl h)

theorem allEmitted_step {P : Str → Prop} (hP : ∀ t, P (escapeHtml t)) (st : State)
    (line : Str) (h : AllEmitted P st) : AllEmitted P (step st line) := by
  unfold step
  split
  · split
    · exact allEmitted_closeLists (allEmitted_flushPara hP h)
    · exact @allEmitted_push _ st _ h (Emitted.code _ _ (hP _) (hP _))
  · split
    · exact h
    · simp only
      split
      · exact allEmitted_closeLists (allEmitted_flushPara hP h)
      · split
        · next level text hm =>
          exact allEmitted_push (allEmitted_closeLists (allEmitted_flushPara hP h))
            (Emitted.heading level _ (hMatch_level hm) (hP text))
        · split
          · exact allEmitted_push (allEmitted_openUl (allEmitted_closeOl
              (allEmitted_flushPara hP h))) (Emitted.li _ (hP _))
          · split
            · exact allEmitted_push (allEmitted_openOl (allEmitted_closeUl
                (allEmitted_flushPara hP h))) (Emitted.li _ (hP _))
            · exact h

theorem allEmitted_finish {P : Str → Prop} (hP : ∀ t, P (escapeHtml t)) {st : State}
    (h : AllEmitted P st) : AllEmitted P (finish st) := by
  unfold finish
  split
  · exact allEmitted_closeLists (allEmitted_flushPara hP h)
  · exact allEmitted_push h (Emitted.code _ _ (hP _) (hP _))

theorem allEmitted_fragments {P : Str → Prop} (hP : ∀ t, P (escapeHtml t)) (content : Str) :
    ∀ f ∈ fragments content, Emitted P f :=
  allEmitted_finish hP
    (foldl_step_induction (AllEmitted P) (allEmitted_step hP) _ initState
      (fun f hf => by simp [initState] at hf))

theorem emitted_inv {P : Str → Prop} {f : Str} (h : Emitted P f) :
    (∃ html, f = paraFrag html) ∨ (∃ lang body, P lang ∧ P body ∧ f = codeFrag lang body) ∨
      (∃ level text, f = headingFrag level text) ∨ (∃ text, f = liFrag text) ∨
      f = ulOpen ∨ f = olOpen ∨ f = ulClose ∨ f = olClose := by
  cases h with
  | para parts h => exact Or.inl ⟨_, rfl⟩
  | code lang body hl hb => exact Or.inr (Or.inl ⟨lang, body, hl, hb, rfl⟩)
  | heading level text hk ht => exact Or.inr (Or.inr (Or.inl ⟨level, text, rfl⟩))
  | li text ht => exact Or.inr (Or.inr (Or.inr (Or.inl ⟨text, rfl⟩)))
  | ulOpen => simp
  | olOpen => simp
  | ulClose => simp
  | olClose => simp

/-- A code fragment whose language tag is a lone quotation mark has no
emitted shape in which the inserted texts are free of quotes. -/
theorem not_emitted_quoteFree_code :
    ¬ Emitted (fun s => SafeText s ∧ QuoteFree s) (codeFrag [quot] []) := by
  intro h
  have h3 : (codeFrag [quot] []).take 3 = "<pr".toList := by decide
  rcases emitted_inv h with ⟨x, hx⟩ | ⟨l, b, hl, -, hx⟩ | ⟨k, t, hx⟩ | ⟨t, hx⟩ | hx | hx | hx | hx
  · rw [hx] at h3
    exact absurd h3 (by simp [paraFrag])
  · have hq : quot ∉ l := hl.2.1
    simp only [codeFrag, List.append_assoc, List.append_cancel_left_eq] at hx
    cases l with
    | nil =>
      have h2 := congrArg (List.take 2) hx
      have e2 : List.take 2 ([] ++ ("\">".toList ++ (b ++ "</code></pre>".toList))) =
          "\">".toList := rfl
      rw [e2] at h2
      revert h2
      decide
    | cons c l1 =>
      have hc : quot = c := by
        have := congrArg List.head? hx
        simpa using this
      exact hq (by simp [hc])
  · rw [hx] at h3
    exact absurd h3 (by simp [headingFrag])
  · rw [hx] at h3
    exact absurd h3 (by simp [liFrag])
  · rw [hx] at h3; revert h3; decide
  · rw [hx] at h3; revert h3; decide
  · rw [hx] at h3; revert h3; decide
  · rw [hx] at h3; revert h3; decide

/-- C3: the code breaks the claim at the language tag.  Lines 630 and 706
pass the tag through `escapeHtml` to place it inside `class="..."`, yet a
quotation mark in it reaches the attribute raw and ends it, so that the rest
of the tag becomes markup of the element; and there is an input whose
fragments cannot be read as structural markup around inserted texts free of
raw quotes. -/
theorem quote_raw_in_class_attribute :
    parseContent "```x\" onclick=\"y\n\"quoted\" & 'single'\n```".toList =
        ("<pre class=\"my-4 rounded-lg overflow-auto\">" ++
          "<code class=\"language-x\" onclick=\"y\">\"quoted\" &amp; 'single'</code></pre>").toList ∧
      ¬ ∀ f ∈ fragments "```\"".toList, Emitted (fun s => SafeText s ∧ QuoteFree s) f := by
  refine ⟨by decide, fun h => not_emitted_quoteFree_code (h _ ?_)⟩
  decide

/-- What the renderer does keep for every input: every fragment it emits is
fixed structural markup around inserted texts, and at every insertion point
(paragraph lines, language tag in the class attribute, code body, heading
text, list item text) the inserted text is a result of `escapeHtml`, in
which no raw `<` or `>` occurs and every `&` begins an entity. -/
theorem fragments_escaped (content : Str) :
    ∀ f ∈ fragments content, Emitted (fun s => (∃ t, s = escapeHtml t) ∧ SafeText s) f :=
  allEmitted_fragments (fun t => ⟨⟨t, rfl⟩, escapeHtml_safeText t⟩) content

/-- The shape of the fragments at a list item holding markup characters. -/
theorem fragments_escaped_witness :
    "<li>&lt;b&gt; &amp; co</li>".toList ∈ fragments "- <b> & co".toList ∧
      Emitted (fun s => (∃ t, s = escapeHtml t) ∧ SafeText s)
        "<li>&lt;b&gt; &amp; co</li>".toList :=
  ⟨by decide, fragments_escaped "- <b> & co".toList _ (by decide)⟩

/-! ## Fenced code blocks -/

theorem startsWith_fence_append (g : Str) : startsWith (fence ++ g) fence = true := by
  simp [startsWith, fence]

theorem langOf_fence_append (g : Str) :
    langOf (fence ++ g) = if trim g = [] then "text".toList else trim g := by
  simp [langOf, fence]

/-- Inside a fence, lines that do not start with the delimiter are appended
to the code buffer and nothing else changes. -/
theorem foldl_step_inCode (body : List Str) (hbody : ∀ l ∈ body, startsWith l fence = false) :
    ∀ st : State, st.inCode = true →
      body.foldl step st = { st with codeBuf := st.codeBuf ++ body } := by
  induction body with
  | nil => intro st _; simp
  | cons l body ih =>
    intro st hin
    have hl : startsWith l fence = false := hbody l (List.mem_cons_self l body)
    have hstep : step st l = { st with codeBuf := st.codeBuf ++ [l] } := by
      simp [step, hl, hin]
    have hrest := ih (fun x hx => hbody x (List.mem_cons_of_mem l hx))
      { st with codeBuf := st.codeBuf ++ [l] } hin
    rw [List.foldl_cons, hstep, hrest]
    simp

/-- C4: an input whose line stream is an opening fence line with language
text `g`, body lines none of which starts with the delimiter, and a closing
delimiter line, emits exactly one fragment: the code block whose class is
`language-` followed by `escapeHtml` of `g` trimmed (of `text` when that is
empty) and whose content is `escapeHtml`, applied once, of the body lines
joined by line feeds. -/
theorem fenced_block (content g : Str) (body : List Str)
    (hlines : lines content = (fence ++ g) :: body ++ [fence])
    (hbody : ∀ l ∈ body, startsWith l fence = false) :
    fragments content =
        [codeFrag (escapeHtml (if trim g = [] then "text".toList else trim g))
          (escapeHtml (join "\n".toList body))] ∧
      parseContent content =
        codeFrag (escapeHtml (if trim g = [] then "text".toList else trim g))
          (escapeHtml (join "\n".toList body)) := by
  have hfr : fragments content =
      [codeFrag (escapeHtml (if trim g = [] then "text".toList else trim g))
        (escapeHtml (join "\n".toList body))] := by
    unfold fragments runLines
    rw [hlines, List.cons_append, List.foldl_cons, List.foldl_append]
    have h1 : step initState (fence ++ g) =
        { initState with inCode := true, codeLang := langOf (fence ++ g), codeBuf := [] } := by
      simp [step, startsWith_fence_append, initState, flushPara, closeLists, closeUl, closeOl]
    rw [h1, foldl_step_inCode body hbody _ rfl, langOf_fence_append]
    simp [step, startsWith, fence, push, codeHtml, finish, flushPara, closeLists, closeUl,
      closeOl, initState]
  refine ⟨hfr, ?_⟩
  unfold parseContent
  rw [hfr]
  simp

/-- The statement of C4 at the block of the specification, and at a body
whose lines look like a heading, a list item and a blank line. -/
theorem fenced_block_witness :
    parseContent "```js\nconst x = 1;\n```".toList =
        "<pre class=\"my-4 rounded-lg overflow-auto\"><code class=\"language-js\">const x = 1;</code></pre>".toList ∧
      parseContent "``` \n# <h>\n- item\n\n```".toList =
        codeFrag "text".toList "# &lt;h&gt;\n- item\n".toList :=
  ⟨(fenced_block "```js\nconst x = 1;\n```".toList "js".toList ["const x = 1;".toList]
      (by decide) (by decide)).2,
    (fenced_block "``` \n# <h>\n- item\n\n```".toList " ".toList
      ["# <h>".toList, "- item".toList, []] (by decide) (by decide)).2⟩

/-! ## The helpers of the loop, field by field -/

@[simp] theorem flushPara_paraBuf (st : State) : (flushPara st).paraBuf = [] := by
  unfold flushPara
  split
  · next h => exact List.length_eq_zero.mp h
  · rfl

@[simp] theorem flushPara_inCode (st : State) : (flushPara st).inCode = st.inCode := by
  unfold flushPara; split <;> rfl

@[simp] theorem flushPara_codeLang (st : State) : (flushPara st).codeLang = st.codeLang := by
  unfold flushPara; split <;> rfl

@[simp] theorem flushPara_codeBuf (st : State) : (flushPara st).codeBuf = st.codeBuf := by
  unfold flushPara; split <;> rfl

@[simp] theorem flushPara_inUl (st : State) : (flushPara st).inUl = st.inUl := by
  unfold flushPara; split <;> rfl

@[simp] theorem flushPara_inOl (st : State) : (flushPara st).inOl = st.inOl := by
  unfold flushPara; split <;> rfl

theorem flushPara_of_nil {st : State} (h : st.paraBuf = []) : flushPara st = st := by
  simp [flushPara, h]

@[simp] theorem closeLists_inUl (st : State) : (closeLists st).inUl = false := by
  unfold closeLists closeOl closeUl
  cases h1 : st.inUl <;> cases h2 : st.inOl <;> simp [h1, h2]

@[simp] theorem closeLists_inOl (st : State) : (closeLists st).inOl = false := by
  unfold closeLists closeOl closeUl
  cases h1 : st.inUl <;> cases h2 : st.inOl <;> simp [h1, h2]

@[simp] theorem closeLists_paraBuf (st : State) : (closeLists st).paraBuf = st.paraBuf := by
  unfold closeLists closeOl closeUl
  cases h1 : st.inUl <;> cases h2 : st.inOl <;> simp [h1, h2]

@[simp] theorem closeLists_inCode (st : State) : (closeLists st).inCode = st.inCode := by
  unfold closeLists closeOl closeUl
  cases h1 : st.inUl <;> cases h2 : st.inOl <;> simp [h1, h2]

@[simp] theorem closeLists_codeBuf (st : State) : (closeLists st).codeBuf = st.codeBuf := by
  unfold closeLists closeOl closeUl
  cases h1 : st.inUl <;> cases h2 : st.inOl <;> simp [h1, h2]

@[simp] theorem closeLists_codeLang (st : State) : (closeLists st).codeLang = st.codeLang := by
  unfold closeLists closeOl closeUl
  cases h1 : st.inUl <;> cases h2 : st.inOl <;> simp [h1, h2]

theorem closeLists_of_closed {st : State} (h1 : st.inUl = false) (h2 : st.inOl = false) :
    closeLists st = st := by
  simp [closeLists, closeOl, closeUl, h1, h2]

/-- The loop body keeps the state consistent. -/
theorem consistent_step (st : State) (line : Str) (h : Consistent st) :
    Consistent (step st line) := by
  obtain ⟨h1, h2, h3⟩ := h
  unfold step
  split
  · split
    · simp [Consistent]
    · simp [Consistent, push]
      next hc =>
      simp only [Bool.not_eq_true, Bool.not_eq_false] at hc
      have := h1 (by simpa using hc)
      simp [this]
  · split
    · next hc => exact ⟨fun _ => h1 hc, fun hf => by simp [hc] at hf, h3⟩
    · next hc =>
      have hcb : st.codeBuf = [] := h2 (by simpa using hc)
      have hcf : st.inCode = false := by simpa using hc
      simp only
      split
      · simp [Consistent, hcb, hcf]
      · split
        · simp [Consistent, push, hcb, hcf]
        · split
          · refine ⟨?_, ?_, ?_⟩ <;>
              simp [push, openUl, closeOl, hcb, hcf] <;>
              cases hu : st.inUl <;> cases ho : st.inOl <;> simp_all
          · split
            · refine ⟨?_, ?_, ?_⟩ <;>
                simp [push, openOl, closeUl, hcb, hcf] <;>
                cases hu : st.inUl <;> cases ho : st.inOl <;> simp_all
            · exact ⟨fun ht => by simp [hcf] at ht, fun _ => hcb, h3⟩

/-- Every state the loop reaches is consistent. -/
theorem consistent_runLines (ls : List Str) : Consistent (runLines ls) :=
  foldl_step_induction Consistent consistent_step ls initState (by simp [Consistent, initState])

/-! ## The line stream -/

theorem splitLines_ne_nil (s : Str) : splitLines s ≠ [] := by
  cases s with
  | nil => simp [splitLines]
  | cons c r =>
    unfold splitLines
    split
    · simp
    · split <;> simp

/-- Splitting at a line feed: the pieces before it, then the pieces after it. -/
theorem splitLines_append_lf (a b : Str) :
    splitLines (a ++ '\n' :: b) = splitLines a ++ splitLines b := by
  induction a with
  | nil => simp [splitLines]
  | cons c a ih =>
    by_cases hc : c = '\n'
    · simp [splitLines, hc, ih]
    · obtain ⟨l, ls, hl⟩ := List.exists_cons_of_ne_nil (splitLines_ne_nil a)
      simp [splitLines, hc, ih, hl]

theorem splitLines_of_no_lf (s : Str) (h : '\n' ∉ s) : splitLines s = [s] := by
  induction s with
  | nil => rfl
  | cons c s ih =>
    have hc : c ≠ '\n' := fun e => h (by simp [e])
    have hs : '\n' ∉ s := fun e => h (List.mem_cons_of_mem c e)
    simp [splitLines, hc, ih hs]

theorem replaceCRLF_cons_of_ne {c : Char} (hc : c ≠ '\r') (s : Str) :
    replaceCRLF (c :: s) = c :: replaceCRLF s := by
  cases s with
  | nil => rfl
  | cons d r => simp [replaceCRLF, hc]

theorem replaceCRLF_of_no_lf (s : Str) (h : '\n' ∉ s) : replaceCRLF s = s := by
  induction s with
  | nil => rfl
  | cons c s ih =>
    have hs : '\n' ∉ s := fun e => h (List.mem_cons_of_mem c e)
    cases s with
    | nil => rfl
    | cons d r =>
      have hd : d ≠ '\n' := fun e => hs (by simp [e])
      simp only [replaceCRLF, hd, and_false, if_false]
      rw [ih hs]

/-- The replacement of CR LF pairs works on both sides of a line feed
separately, unless a carriage return stands right before the line feed. -/
theorem replaceCRLF_append_lf (a b : Str) (h : a.getLast? ≠ some '\r') :
    replaceCRLF (a ++ '\n' :: b) = replaceCRLF a ++ '\n' :: replaceCRLF b := by
  induction a using replaceCRLF.induct with
  | case1 => exact replaceCRLF_cons_of_ne (by decide) b
  | case2 c =>
    have hc : c ≠ '\r' := fun e => h (by simp [e])
    simp [replaceCRLF, hc, replaceCRLF_cons_of_ne (show '\n' ≠ '\r' by decide) b]
  | case3 c d r hcd ih =>
    have hr : r.getLast? ≠ some '\r' := by
      cases r with
      | nil => simp
      | cons e r1 => simpa [List.getLast?_cons_cons] using h
    simp [replaceCRLF, hcd, ih hr]
  | case4 c d r hcd ih =>
    have hr : (d :: r).getLast? ≠ some '\r' := by
      simpa [List.getLast?_cons_cons] using h
    have := ih hr
    simp only [List.cons_append] at this ⊢
    simp [replaceCRLF, hcd, this]

/-- The line stream of two texts separated by a line feed is the first
line stream followed by the second, unless the first text ends with a
carriage return. -/
theorem lines_append_lf (a b : Str) (h : a.getLast? ≠ some '\r') :
    lines (a ++ '\n' :: b) = lines a ++ lines b := by
  unfold lines
  rw [replaceCRLF_append_lf a b h, splitLines_append_lf]

theorem lines_of_no_lf (s : Str) (h : '\n' ∉ s) : lines s = [s] := by
  unfold lines
  rw [replaceCRLF_of_no_lf s h, splitLines_of_no_lf s h]

theorem join_cons_cons (sep a b : Str) (r : List Str) :
    join sep (a :: b :: r) = a ++ sep ++ join sep (b :: r) := by
  simp [join, List.intercalate]

theorem join_singleton (sep a : Str) : join sep [a] = a := by
  simp [join, List.intercalate]

/-- Lines without line feed that do not end with a carriage return, joined
by line feeds, are the line stream of the joined text. -/
theorem lines_join (ls : List Str) (hne : ls ≠ [])
    (h : ∀ l ∈ ls, '\n' ∉ l ∧ l.getLast? ≠ some '\r') : lines (join "\n".toList ls) = ls := by
  induction ls with
  | nil => exact absurd rfl hne
  | cons a r ih =>
    cases r with
    | nil => rw [join_singleton]; exact lines_of_no_lf a (h a (by simp)).1
    | cons b r =>
      have ha := h a (by simp)
      have e : join "\n".toList (a :: b :: r) = a ++ '\n' :: join "\n".toList (b :: r) := by
        rw [join_cons_cons]; simp
      rw [e, lines_append_lf _ _ ha.2, lines_of_no_lf a ha.1,
        ih (by simp) (fun l hl => h l (List.mem_cons_of_mem a hl))]
      rfl

/-! ## Unterminated fences -/

/-- At the end of the input inside a fence, the fragments are those emitted
so far followed by the code block of the buffered lines. -/
theorem finish_inCode {st : State} (h : st.inCode = true) :
    (finish st).out = st.out ++ [codeHtml st.codeLang st.codeBuf] := by
  simp [finish, h, push]

/-- A closing delimiter line inside a fence, followed by the end of the
input, leaves the fragments of the implicit closing. -/
theorem finish_step_fence {st : State} (hc : Consistent st) (h : st.inCode = true) :
    (finish (step st fence)).out = (finish st).out := by
  obtain ⟨hp, hu, ho⟩ := hc.1 h
  rw [finish_inCode h]
  have hs : step st fence = { push st (codeHtml st.codeLang st.codeBuf) with
      inCode := false, codeBuf := [], codeLang := "text".toList } := by
    simp [step, startsWith, fence, h]
  rw [hs]
  simp [finish, flushPara, closeLists, closeUl, closeOl, push, hp, hu, ho]

/-- C5, as stated, fails: an input that ends inside a fence with a carriage
return loses that carriage return once a closing delimiter line is appended,
because the carriage return and the appended line feed are then replaced
together; the two outputs differ. -/
theorem unterminated_fence_cr_differs :
    (runLines (lines "```\na\r".toList)).inCode = true ∧
      parseContent "```\na\r".toList =
        "<pre class=\"my-4 rounded-lg overflow-auto\"><code class=\"language-text\">a\r</code></pre>".toList ∧
      parseContent ("```\na\r".toList ++ "\n```".toList) =
        "<pre class=\"my-4 rounded-lg overflow-auto\"><code class=\"language-text\">a</code></pre>".toList ∧
      parseContent "```\na\r".toList ≠ parseContent ("```\na\r".toList ++ "\n```".toList) := by
  decide

/-- C5, amended: for every input that ends while a fence is still open,
`parseContent` emits, after the fragments emitted before, the buffered code
lines as one closed code block with the captured language tag; its output
equals the output of every input whose line stream is the same lines
followed by a closing delimiter line, and so, when the input does not end
with a carriage return, the output of the input with a line feed and the
delimiter appended. -/
theorem unterminated_fence_closed (content : Str)
    (hopen : (runLines (lines content)).inCode = true) :
    fragments content = (runLines (lines content)).out ++
        [codeHtml (runLines (lines content)).codeLang (runLines (lines content)).codeBuf] ∧
      (∀ closed : Str, lines closed = lines content ++ [fence] →
        parseContent closed = parseContent content) ∧
      (content.getLast? ≠ some '\r' →
        parseContent (content ++ "\n```".toList) = parseContent content) := by
  have hB : ∀ closed : Str, lines closed = lines content ++ [fence] →
      parseContent closed = parseContent content := by
    intro closed hl
    unfold parseContent fragments runLines
    rw [hl, List.foldl_append, List.foldl_cons, List.foldl_nil]
    exact congrArg List.flatten (finish_step_fence (consistent_runLines _) hopen)
  refine ⟨finish_inCode hopen, hB, fun hcr => hB _ ?_⟩
  have e : content ++ "\n```".toList = content ++ '\n' :: fence := rfl
  rw [e, lines_append_lf _ _ hcr]
  rfl

/-- The amended C5 at the unterminated fence of the specification. -/
theorem unterminated_fence_closed_witness :
    parseContent "```python\nprint(1)".toList =
        "<pre class=\"my-4 rounded-lg overflow-auto\"><code class=\"language-python\">print(1)</code></pre>".toList ∧
      parseContent ("```python\nprint(1)".toList ++ "\n```".toList) =
        parseContent "```python\nprint(1)".toList :=
  ⟨by decide,
    (unterminated_fence_closed "```python\nprint(1)".toList (by decide)).2.2 (by decide)⟩

/-! ## The regular expressions on lines of a given shape -/

theorem wsRest_of_head {s : Str} (h : ∀ c ∈ s.head?, isWhiteSpace c = false) :
    wsRest s = none := by
  cases s with
  | nil => rfl
  | cons c r => simp [wsRest, h c (by simp)]

theorem dotStarEnd_of_no_terminator {t : Str} (h : ∀ c ∈ t, isLineTerminator c = false) :
    dotStarEnd t = some t := by
  simp only [dotStarEnd, ite_eq_left_iff, List.all_eq_true, Bool.not_eq_true']
  intro hn
  exact absurd h hn

theorem wsRest_cons_ws {c : Char} (hc : isWhiteSpace c = true) (r : Str) :
    wsRest (c :: r) = match wsRest r with
      | some t => some t
      | none => dotStarEnd r := by
  rw [wsRest, if_pos hc]

/-- The tail `\s+(.*)$` on white space followed by a text that starts with a
character other than white space and holds no line terminator: the group
captures that text. -/
theorem wsRest_append {ws t : Str} (hne : ws ≠ []) (hws : ∀ c ∈ ws, isWhiteSpace c = true)
    (h0 : ∀ c ∈ t.head?, isWhiteSpace c = false) (hlt : ∀ c ∈ t, isLineTerminator c = false) :
    wsRest (ws ++ t) = some t := by
  induction ws with
  | nil => exact absurd rfl hne
  | cons c ws ih =>
    have hc : isWhiteSpace c = true := hws c (List.mem_cons_self c ws)
    rw [List.cons_append, wsRest_cons_ws hc]
    cases ws with
    | nil => rw [List.nil_append, wsRest_of_head h0, dotStarEnd_of_no_terminator hlt]
    | cons d ws => rw [ih (by simp) (fun x hx => hws x (List.mem_cons_of_mem c hx))]

/-- What the tail `\s+(.*)$` matches: white space, then the captured text. -/
theorem wsRest_some {s t : Str} (h : wsRest s = some t) :
    ∃ ws, ws ≠ [] ∧ (∀ c ∈ ws, isWhiteSpace c = true) ∧ s = ws ++ t := by
  induction s with
  | nil => simp [wsRest] at h
  | cons c r ih =>
    unfold wsRest at h
    split at h
    · next hc =>
      split at h
      · next u hu =>
        obtain ⟨ws, -, hws, he⟩ := ih (by rw [hu, h])
        refine ⟨c :: ws, by simp, ?_, by rw [he]; rfl⟩
        intro x hx
        rcases List.mem_cons.mp hx with rfl | hx
        · exact hc
        · exact hws x hx
      · refine ⟨[c], by simp, by simpa using hc, ?_⟩
        unfold dotStarEnd at h
        split at h
        · simp only [Option.some.injEq] at h
          rw [h]; rfl
        · simp at h
    · simp at h

theorem hashes_some {j : Nat} {s r : Str} (h : hashes j s = some r) :
    s = List.replicate j '#' ++ r := by
  unfold hashes at h
  split at h
  · next hp =>
    simp only [Option.some.injEq] at h
    obtain ⟨u, hu⟩ := List.isPrefixOf_iff_prefix.mp hp
    rw [← h, ← hu]
    simp
  · simp at h

/-- What the heading expression matches: one to three number signs, white
space, then the captured text. -/
theorem hMatch_some {s : Str} {m : Nat × Str} (h : hMatch s = some m) :
    1 ≤ m.1 ∧ m.1 ≤ 3 ∧ ∃ ws, ws ≠ [] ∧ (∀ c ∈ ws, isWhiteSpace c = true) ∧
      s = List.replicate m.1 '#' ++ ws ++ m.2 := by
  obtain ⟨h1, h3⟩ := hMatch_level h
  refine ⟨h1, h3, ?_⟩
  have key : ∀ j, hMatchWith j s = some m → ∃ ws, ws ≠ [] ∧
      (∀ c ∈ ws, isWhiteSpace c = true) ∧ s = List.replicate m.1 '#' ++ ws ++ m.2 := by
    intro j hj
    have hfst := hMatchWith_fst hj
    unfold hMatchWith at hj
    split at hj
    · next r hr =>
      split at hj
      · next t ht =>
        simp only [Option.some.injEq] at hj
        obtain ⟨ws, hne, hws, he⟩ := wsRest_some ht
        refine ⟨ws, hne, hws, ?_⟩
        rw [hashes_some hr, he, ← hj]
        simp
      · simp at hj
    · simp at hj
  rcases hMatch_cases h with h | h | h <;> exact key _ h

/-- The heading expression on one to three number signs, white space, and a
text that starts with a character other than white space and holds no line
terminator. -/
theorem hMatch_of_shape {k : Nat} {ws t : Str} (hk : 1 ≤ k ∧ k ≤ 3) (hne : ws ≠ [])
    (hws : ∀ c ∈ ws, isWhiteSpace c = true) (h0 : ∀ c ∈ t.head?, isWhiteSpace c = false)
    (hlt : ∀ c ∈ t, isLineTerminator c = false) :
    hMatch (List.replicate k '#' ++ ws ++ t) = some (k, t) := by
  have hrest := wsRest_append hne hws h0 hlt
  obtain ⟨c, ws1, rfl⟩ := List.exists_cons_of_ne_nil hne
  have hc : c ≠ '#' := by
    intro e
    have := hws c (List.mem_cons_self c ws1)
    rw [e] at this
    exact absurd this (by decide)
  obtain ⟨h1, h3⟩ := hk
  have hc2 : ('#' == c) = false := by simpa using Ne.symm hc
  simp only [List.cons_append] at hrest
  interval_cases k <;>
    simp [hMatch, hMatchWith, hashes, List.replicate, List.isPrefixOf, hc2, hrest]

/-! ## Trimmed lines and the dispatch of the loop body -/

theorem trim_head_of_cons {c : Char} {r : Str} (hc : isWhiteSpace c = false) :
    (trim (c :: r)).head? = some c := by
  unfold trim
  rw [List.dropWhile_cons_of_neg (by simp [hc])]
  have hp : List.rdropWhile isWhiteSpace (c :: r) <+: c :: r := List.rdropWhile_prefix _ _
  have hn : List.rdropWhile isWhiteSpace (c :: r) ≠ [] := by
    rw [Ne, List.rdropWhile_eq_nil_iff]
    intro h
    have := h c (by simp)
    simp [hc] at this
  obtain ⟨x, xs, hx⟩ := List.exists_cons_of_ne_nil hn
  rw [hx] at hp ⊢
  obtain ⟨u, hu⟩ := hp
  simp only [List.cons_append, List.cons.injEq] at hu
  simp [hu.1]

/-- A line whose trimmed form starts with a character other than the
backtick does not start with the fence delimiter. -/
theorem startsWith_fence_false {line : Str} {ch : Char} (hh : (trim line).head? = some ch)
    (hne : ch ≠ backtick) : startsWith line fence = false := by
  cases hs : startsWith line fence
  · rfl
  · exfalso
    cases line with
    | nil => simp [startsWith, fence] at hs
    | cons c r =>
      have hc : c = backtick := by
        simp only [startsWith, fence] at hs
        have : (backtick == c) = true := by
          revert hs
          simp [List.isPrefixOf, backtick]
          intro h _
          exact h
        exact (beq_iff_eq.mp this).symm
      subst hc
      rw [trim_head_of_cons (by decide)] at hh
      exact hne (Option.some.inj hh).symm

theorem trim_ne_nil_of_head {line : Str} {ch : Char} (hh : (trim line).head? = some ch) :
    trim line ≠ [] := by
  intro h
  rw [h] at hh
  simp at hh

theorem step_heading {st : State} {line t : Str} {k : Nat} (hin : st.inCode = false)
    (hf : startsWith line fence = false) (hne : trim line ≠ [])
    (hm : hMatch (trim line) = some (k, t)) :
    step st line = push (closeLists (flushPara st)) (headingHtml k t) := by
  simp [step, hf, hin, hne, hm]

theorem step_ul {st : State} {line t : Str} (hin : st.inCode = false)
    (hf : startsWith line fence = false) (hne : trim line ≠ [])
    (hm : hMatch (trim line) = none) (hu : ulMatch (trim line) = some t) :
    step st line = push (openUl (closeOl (flushPara st))) (liHtml t) := by
  simp [step, hf, hin, hne, hm, hu]

theorem step_ol {st : State} {line t : Str} (hin : st.inCode = false)
    (hf : startsWith line fence = false) (hne : trim line ≠ [])
    (hm : hMatch (trim line) = none) (hu : ulMatch (trim line) = none)
    (ho : olMatch (trim line) = some t) :
    step st line = push (openOl (closeUl (flushPara st))) (liHtml t) := by
  simp [step, hf, hin, hne, hm, hu, ho]

theorem step_plain {st : State} {line : Str} (hin : st.inCode = false)
    (hf : startsWith line fence = false) (hne : trim line ≠ [])
    (hm : hMatch (trim line) = none) (hu : ulMatch (trim line) = none)
    (ho : olMatch (trim line) = none) :
    step st line = { st with paraBuf := st.paraBuf ++ [line] } := by
  simp [step, hf, hin, hne, hm, hu, ho]

/-- The heading expression fails on text that does not start with a
number sign. -/
theorem hMatch_of_head {s : Str} (h : ∀ c ∈ s.head?, c ≠ '#') : hMatch s = none := by
  cases hm : hMatch s with
  | none => rfl
  | some m =>
    exfalso
    obtain ⟨h1, -, ws, -, -, he⟩ := hMatch_some hm
    obtain ⟨j, hj⟩ : ∃ j, m.1 = j + 1 := ⟨m.1 - 1, by omega⟩
    rw [hj, List.replicate_succ] at he
    exact h '#' (by rw [he]; simp) rfl

theorem ulMatch_of_head {s : Str} (h : ∀ c ∈ s.head?, c ≠ '-' ∧ c ≠ '*') :
    ulMatch s = none := by
  cases s with
  | nil => rfl
  | cons c r =>
    have := h c (by simp)
    simp [ulMatch, this.1, this.2]

theorem olMatch_of_head {s : Str} (h : ∀ c ∈ s.head?, isDigit c = false) :
    olMatch s = none := by
  cases s with
  | nil => rfl
  | cons c r =>
    have := h c (by simp)
    simp [olMatch, digitsDot, this]

/-- The fragments of an input of one line. -/
theorem fragments_single (content line : Str) (h : lines content = [line]) :
    fragments content = (finish (step initState line)).out := by
  unfold fragments runLines
  rw [h]
  rfl

/-! ## Headings -/

theorem finish_push_init (f : Str) : (finish (push initState f)).out = [f] := by
  simp [finish, push, initState, flushPara, closeLists, closeUl, closeOl]

/-- C6, as stated, fails: a line that is a number sign, a space and a text
holding a carriage return is not matched by the heading expression, whose
`.` stops at line terminators; it becomes a paragraph. -/
theorem heading_text_with_cr_is_paragraph :
    trim "# a\rb".toList = List.replicate 1 '#' ++ " ".toList ++ "a\rb".toList ∧
      lines "# a\rb".toList = ["# a\rb".toList] ∧
      hMatch (trim "# a\rb".toList) = none ∧
      parseContent "# a\rb".toList = "<p class=\"my-3\"># a\rb</p>".toList := by
  decide

/-- C6, amended: for every level `k` in 1..3 and every text `t` that holds no
line terminator (CR, LS, PS), `t` being what follows the white space, a line
whose trimmed form is `k` number signs, white space, then `t` is emitted
outside a fence, after the pending paragraph and list are closed, as exactly
one fragment `<hk class="C_k">escapeHtml(t)</hk>`; alone in the input it is
the whole output; and the class differs for each level. -/
theorem heading_line (line ws t : Str) (k : Nat) (hk : 1 ≤ k ∧ k ≤ 3)
    (hws : ws ≠ [] ∧ ∀ c ∈ ws, isWhiteSpace c = true)
    (ht : (∀ c ∈ t.head?, isWhiteSpace c = false) ∧ ∀ c ∈ t, isLineTerminator c = false)
    (htrim : trim line = List.replicate k '#' ++ ws ++ t) :
    (∀ st : State, st.inCode = false →
        step st line = push (closeLists (flushPara st)) (headingFrag k (escapeHtml t))) ∧
      (∀ content : Str, lines content = [line] →
        parseContent content = headingFrag k (escapeHtml t)) ∧
      headingClass 1 ≠ headingClass 2 ∧ headingClass 1 ≠ headingClass 3 ∧
        headingClass 2 ≠ headingClass 3 := by
  have hm : hMatch (trim line) = some (k, t) := by
    rw [htrim]
    exact hMatch_of_shape hk hws.1 hws.2 ht.1 ht.2
  have hhead : (trim line).head? = some '#' := by
    obtain ⟨j, hj⟩ : ∃ j, k = j + 1 := ⟨k - 1, by omega⟩
    rw [htrim, hj, List.replicate_succ]
    rfl
  have hf : startsWith line fence = false := startsWith_fence_false hhead (by decide)
  have hstep : ∀ st : State, st.inCode = false →
      step st line = push (closeLists (flushPara st)) (headingFrag k (escapeHtml t)) :=
    fun st hin => step_heading hin hf (trim_ne_nil_of_head hhead) hm
  refine ⟨hstep, ?_, by decide, by decide, by decide⟩
  intro content hl
  unfold parseContent
  rw [fragments_single content line hl, hstep initState rfl]
  have e : closeLists (flushPara initState) = initState := by decide
  rw [e, finish_push_init]
  simp

/-- The amended C6 at the heading of the specification, indented and with
text that needs escaping. -/
theorem heading_line_witness :
    parseContent "## Title".toList =
        "<h2 class=\"text-xl font-bold mt-5 mb-2\">Title</h2>".toList ∧
      parseContent "  ###  a <b> ".toList =
        "<h3 class=\"text-lg font-semibold mt-4 mb-2\">a &lt;b&gt;</h3>".toList :=
  ⟨(heading_line "## Title".toList " ".toList "Title".toList 2 (by decide) (by decide)
      (by decide) (by decide)).2.1 _ (by decide),
    (heading_line "  ###  a <b> ".toList "  ".toList "a <b>".toList 3 (by decide) (by decide)
      (by decide) (by decide)).2.1 _ (by decide)⟩

/-- C7: a line whose trimmed form starts with a number sign but is not one
to three number signs followed by white space and text is not matched as a
heading; outside a fence it is buffered as a paragraph line, and as a
single-line input it gives one paragraph block holding `escapeHtml` of the
raw line. -/
theorem hash_line_falls_to_paragraph (line : Str) (hhash : (trim line).head? = some '#')
    (hshape : ¬ HeadingShape (trim line)) :
    hMatch (trim line) = none ∧
      (∀ st : State, st.inCode = false →
        step st line = { st with paraBuf := st.paraBuf ++ [line] }) ∧
      ('\n' ∉ line → parseContent line = paraFrag (escapeHtml line)) := by
  have hm : hMatch (trim line) = none := by
    cases h : hMatch (trim line) with
    | none => rfl
    | some m =>
      obtain ⟨h1, h3, ws, hne, hws, he⟩ := hMatch_some h
      exact absurd ⟨m.1, ws, m.2, h1, h3, hne, hws, he⟩ hshape
  have hhd : ∀ c ∈ (trim line).head?, c = '#' := by
    intro c hc
    rw [hhash] at hc
    exact (Option.some.inj hc).symm
  have hu : ulMatch (trim line) = none :=
    ulMatch_of_head (fun c hc => by rw [hhd c hc]; decide)
  have ho : olMatch (trim line) = none :=
    olMatch_of_head (fun c hc => by rw [hhd c hc]; decide)
  have hf : startsWith line fence = false := startsWith_fence_false hhash (by decide)
  have hstep : ∀ st : State, st.inCode = false →
      step st line = { st with paraBuf := st.paraBuf ++ [line] } :=
    fun st hin => step_plain hin hf (trim_ne_nil_of_head hhash) hm hu ho
  refine ⟨hm, hstep, fun hnl => ?_⟩
  unfold parseContent
  rw [fragments_single line line (lines_of_no_lf line hnl), hstep initState rfl]
  simp [finish, flushPara, closeLists, closeUl, closeOl, initState, paraHtml, join_singleton]

/-- A text of the heading shape has a white space character right after
one, two or three number signs. -/
theorem headingShape_elim {s : Str} (h : HeadingShape s) :
    ((s.drop 1).head?.any isWhiteSpace || (s.drop 2).head?.any isWhiteSpace ||
      (s.drop 3).head?.any isWhiteSpace) = true := by
  obtain ⟨k, ws, t, h1, h3, hne, hws, rfl⟩ := h
  obtain ⟨c, ws1, rfl⟩ := List.exists_cons_of_ne_nil hne
  have hc := hws c (List.mem_cons_self c ws1)
  interval_cases k <;> simp [List.replicate, hc]

/-- The statement of C7 at the lines of the specification: no space after
the number sign, and four number signs. -/
theorem hash_line_falls_to_paragraph_witness :
    parseContent "#Title".toList = "<p class=\"my-3\">#Title</p>".toList ∧
      parseContent "#### Title".toList = "<p class=\"my-3\">#### Title</p>".toList :=
  ⟨(hash_line_falls_to_paragraph "#Title".toList (by decide)
      (fun h => absurd (headingShape_elim h) (by decide))).2.2 (by decide),
    (hash_line_falls_to_paragraph "#### Title".toList (by decide)
      (fun h => absurd (headingShape_elim h) (by decide))).2.2 (by decide)⟩

/-! ## Lists -/

theorem ulMatch_head {s t : Str} (h : ulMatch s = some t) :
    ∃ c, s.head? = some c ∧ (c = '-' ∨ c = '*') := by
  cases s with
  | nil => simp [ulMatch] at h
  | cons c r =>
    refine ⟨c, rfl, ?_⟩
    by_contra hc
    simp only [not_or] at hc
    simp [ulMatch, hc.1, hc.2] at h

theorem olMatch_head {s t : Str} (h : olMatch s = some t) :
    ∃ c, s.head? = some c ∧ isDigit c = true := by
  cases s with
  | nil => simp [olMatch, digitsDot] at h
  | cons c r =>
    refine ⟨c, rfl, ?_⟩
    by_contra hc
    simp [olMatch, digitsDot, hc] at h

/-- A line matched by the unordered list expression reaches the unordered
list rule. -/
theorem ulItem_of_match {l t : Str} (h : ulMatch (trim l) = some t) : UlItem l t := by
  obtain ⟨c, hc, hm⟩ := ulMatch_head h
  refine ⟨startsWith_fence_false hc ?_, trim_ne_nil_of_head hc, hMatch_of_head ?_, h⟩
  · rcases hm with rfl | rfl <;> decide
  · intro d hd
    rw [hc] at hd
    rw [← Option.some.inj hd]
    rcases hm with rfl | rfl <;> decide

/-- A line matched by the ordered list expression reaches the ordered list
rule. -/
theorem olItem_of_match {l t : Str} (h : olMatch (trim l) = some t) : OlItem l t := by
  obtain ⟨c, hc, hm⟩ := olMatch_head h
  have hd : 48 ≤ c.toNat ∧ c.toNat ≤ 57 := by simpa [isDigit] using hm
  refine ⟨startsWith_fence_false hc ?_, trim_ne_nil_of_head hc, hMatch_of_head ?_,
    ulMatch_of_head ?_, h⟩
  · intro e
    rw [e] at hd
    revert hd
    decide
  · intro d hd1 e
    rw [hc] at hd1
    rw [← Option.some.inj hd1] at e
    rw [e] at hd
    revert hd
    decide
  · intro d hd1
    rw [hc] at hd1
    rw [← Option.some.inj hd1]
    constructor <;>
    · intro e
      rw [e] at hd
      revert hd
      decide

theorem ulMatch_of_shape {m : Char} {ws t : Str} (hm : m = '-' ∨ m = '*') (hne : ws ≠ [])
    (hws : ∀ c ∈ ws, isWhiteSpace c = true) (ht : ItemText t) :
    ulMatch (m :: ws ++ t) = some t := by
  have := wsRest_append hne hws ht.1 ht.2
  rcases hm with rfl | rfl <;> simpa [ulMatch] using this

theorem digitsDot_cons_digit {c : Char} (hc : isDigit c = true) (r : Str) :
    digitsDot (c :: r) = match digitsDot r with
      | some t => some t
      | none => dotWsRest r := by
  rw [digitsDot, if_pos hc]

theorem digitsDot_of_shape {ds ws t : Str} (hd : ds ≠ []) (hds : ∀ c ∈ ds, isDigit c = true)
    (hne : ws ≠ []) (hws : ∀ c ∈ ws, isWhiteSpace c = true) (ht : ItemText t) :
    digitsDot (ds ++ ('.' :: (ws ++ t))) = some t := by
  induction ds with
  | nil => exact absurd rfl hd
  | cons c ds ih =>
    have hc : isDigit c = true := hds c (List.mem_cons_self c ds)
    rw [List.cons_append, digitsDot_cons_digit hc]
    cases ds with
    | nil =>
      have hdot : digitsDot ('.' :: (ws ++ t)) = none := by
        rw [digitsDot, if_neg (by decide)]
      rw [List.nil_append, hdot]
      simpa [dotWsRest] using wsRest_append hne hws ht.1 ht.2
    | cons d ds => rw [ih (by simp) (fun x hx => hds x (List.mem_cons_of_mem c hx))]

theorem ulItem_of_shape {l t : Str} (h : UlShape l t) (ht : ItemText t) : UlItem l t := by
  obtain ⟨m, ws, hm, hne, hws, he⟩ := h
  exact ulItem_of_match (by rw [he]; exact ulMatch_of_shape hm hne hws ht)

theorem olItem_of_shape {l t : Str} (h : OlShape l t) (ht : ItemText t) : OlItem l t := by
  obtain ⟨ds, ws, hd, hds, hne, hws, he⟩ := h
  refine olItem_of_match ?_
  rw [he, olMatch]
  have := digitsDot_of_shape hd hds hne hws ht
  simpa [List.append_assoc] using this

/-- An unordered list line when the unordered list is already open: one
more item, nothing else. -/
theorem step_ul_open {st : State} {l t : Str} (h : UlItem l t) (hin : st.inCode = false)
    (hp : st.paraBuf = []) (hu : st.inUl = true) (ho : st.inOl = false) :
    step st l = { st with out := st.out ++ [liHtml t] } := by
  rw [step_ul hin h.1 h.2.1 h.2.2.1 h.2.2.2, flushPara_of_nil hp]
  simp [closeOl, openUl, push, hu, ho]

theorem step_ol_open {st : State} {l t : Str} (h : OlItem l t) (hin : st.inCode = false)
    (hp : st.paraBuf = []) (hu : st.inUl = false) (ho : st.inOl = true) :
    step st l = { st with out := st.out ++ [liHtml t] } := by
  rw [step_ol hin h.1 h.2.1 h.2.2.1 h.2.2.2.1 h.2.2.2.2, flushPara_of_nil hp]
  simp [closeUl, openOl, push, hu, ho]

theorem foldl_ul_open {ls ts : List Str} (h : List.Forall₂ UlItem ls ts) :
    ∀ st : State, st.inCode = false → st.paraBuf = [] → st.inUl = true → st.inOl = false →
      ls.foldl step st = { st with out := st.out ++ ts.map liHtml } := by
  induction h with
  | nil => intro st _ _ _ _; simp
  | cons hlt hr ih =>
    intro st hin hp hu ho
    next l t ls1 ts1 =>
    have hrest := ih { st with out := st.out ++ [liHtml t] } hin hp hu ho
    rw [List.foldl_cons, step_ul_open hlt hin hp hu ho, hrest]
    simp

theorem foldl_ol_open {ls ts : List Str} (h : List.Forall₂ OlItem ls ts) :
    ∀ st : State, st.inCode = false → st.paraBuf = [] → st.inUl = false → st.inOl = true →
      ls.foldl step st = { st with out := st.out ++ ts.map liHtml } := by
  induction h with
  | nil => intro st _ _ _ _; simp
  | cons hlt hr ih =>
    intro st hin hp hu ho
    next l t ls1 ts1 =>
    have hrest := ih { st with out := st.out ++ [liHtml t] } hin hp hu ho
    rw [List.foldl_cons, step_ol_open hlt hin hp hu ho, hrest]
    simp

/-- Consecutive unordered list lines from the start of the input: one
start tag, the items in order, one end tag. -/
theorem fragments_ul_items {ls ts : List Str} (hne : ls ≠ [])
    (h : List.Forall₂ UlItem ls ts) :
    (finish (runLines ls)).out = ulOpen :: ts.map liHtml ++ [ulClose] := by
  cases h with
  | nil => exact absurd rfl hne
  | cons hlt hrest =>
    next l t ls1 ts1 =>
    have h1 : step initState l =
        { initState with out := [ulOpen, liHtml t], inUl := true } := by
      rw [step_ul rfl hlt.1 hlt.2.1 hlt.2.2.1 hlt.2.2.2]
      rfl
    unfold runLines
    rw [List.foldl_cons, h1, foldl_ul_open hrest _ rfl rfl rfl rfl]
    simp [finish, initState, flushPara, closeLists, closeUl, closeOl]

theorem fragments_ol_items {ls ts : List Str} (hne : ls ≠ [])
    (h : List.Forall₂ OlItem ls ts) :
    (finish (runLines ls)).out = olOpen :: ts.map liHtml ++ [olClose] := by
  cases h with
  | nil => exact absurd rfl hne
  | cons hlt hrest =>
    next l t ls1 ts1 =>
    have h1 : step initState l =
        { initState with out := [olOpen, liHtml t], inOl := true } := by
      rw [step_ol rfl hlt.1 hlt.2.1 hlt.2.2.1 hlt.2.2.2.1 hlt.2.2.2.2]
      rfl
    unfold runLines
    rw [List.foldl_cons, h1, foldl_ol_open hrest _ rfl rfl rfl rfl]
    simp [finish, initState, flushPara, closeLists, closeUl, closeOl]

theorem forall2_imp_right {R S : Str → Str → Prop} {ls ts : List Str}
    (h : List.Forall₂ R ls ts) (hts : ∀ t ∈ ts, ItemText t)
    (himp : ∀ l t, R l t → ItemText t → S l t) : List.Forall₂ S ls ts := by
  induction h with
  | nil => exact List.Forall₂.nil
  | cons hlt _ ih =>
    exact List.Forall₂.cons (himp _ _ hlt (hts _ (List.mem_cons_self _ _)))
      (ih (fun t ht => hts t (List.mem_cons_of_mem _ ht)))

/-- C8, as stated, fails: a line that is a marker, a space and an item text
holding a carriage return is not matched by the list expression, whose `.`
stops at line terminators; no list is emitted, the line becomes a
paragraph. -/
theorem list_item_with_cr_is_paragraph :
    lines "- a\rb".toList = ["- a\rb".toList] ∧
      trim "- a\rb".toList = '-' :: " ".toList ++ "a\rb".toList ∧
      ulMatch (trim "- a\rb".toList) = none ∧
      parseContent "- a\rb".toList = "<p class=\"my-3\">- a\rb</p>".toList := by
  decide

/-- C8, amended: for item texts `t_1..t_n` (n at least 1) that hold no line
terminator (CR, LS, PS), each being what follows the white space, an input
whose lines are in trimmed form a marker `-` or `*`, white space, then `t_i`
produces exactly one `ul` start tag, then `<li>escapeHtml(t_i)</li>` for
i = 1..n in input order, then exactly one `</ul>`; the same holds for lines
of digits, a period, white space and `t_i`, with the `ol` wrapper. -/
theorem list_lines_one_wrapper (content : Str) (ls ts : List Str) (hne : ls ≠ [])
    (hlines : lines content = ls) (hts : ∀ t ∈ ts, ItemText t) :
    (List.Forall₂ UlShape ls ts →
        fragments content = ulOpen :: ts.map liHtml ++ [ulClose] ∧
          parseContent content = ulOpen ++ (ts.map liHtml).flatten ++ ulClose) ∧
      (List.Forall₂ OlShape ls ts →
        fragments content = olOpen :: ts.map liHtml ++ [olClose] ∧
          parseContent content = olOpen ++ (ts.map liHtml).flatten ++ olClose) := by
  subst hlines
  constructor
  · intro h
    have hfr := fragments_ul_items hne (forall2_imp_right h hts (fun _ _ => ulItem_of_shape))
    refine ⟨hfr, ?_⟩
    unfold parseContent fragments
    rw [hfr]
    simp
  · intro h
    have hfr := fragments_ol_items hne (forall2_imp_right h hts (fun _ _ => olItem_of_shape))
    refine ⟨hfr, ?_⟩
    unfold parseContent fragments
    rw [hfr]
    simp

/-- The amended C8 at the lists of the specification. -/
theorem list_lines_one_wrapper_witness :
    parseContent "- a\n- b\n- c".toList =
        "<ul class=\"list-disc pl-6 my-3 space-y-1\"><li>a</li><li>b</li><li>c</li></ul>".toList ∧
      parseContent "1. x\n22. <y>".toList =
        "<ol class=\"list-decimal pl-6 my-3 space-y-1\"><li>x</li><li>&lt;y&gt;</li></ol>".toList :=
  ⟨((list_lines_one_wrapper "- a\n- b\n- c".toList
        ["- a".toList, "- b".toList, "- c".toList] ["a".toList, "b".toList, "c".toList]
        (by decide) (by decide) (by decide)).1
      (List.Forall₂.cons ⟨'-', " ".toList, by decide, by decide, by decide, by decide⟩
        (List.Forall₂.cons ⟨'-', " ".toList, by decide, by decide, by decide, by decide⟩
          (List.Forall₂.cons ⟨'-', " ".toList, by decide, by decide, by decide, by decide⟩
            List.Forall₂.nil)))).2,
    ((list_lines_one_wrapper "1. x\n22. <y>".toList
        ["1. x".toList, "22. <y>".toList] ["x".toList, "<y>".toList]
        (by decide) (by decide) (by decide)).2
      (List.Forall₂.cons
        ⟨"1".toList, " ".toList, by decide, by decide, by decide, by decide, by decide⟩
        (List.Forall₂.cons
          ⟨"22".toList, " ".toList, by decide, by decide, by decide, by decide, by decide⟩
          List.Forall₂.nil))).2⟩

/-! ## The output only grows -/

theorem outGrows_refl (a : State) : OutGrows a a := ⟨[], by simp⟩

theorem outGrows_trans {a b c : State} (h1 : OutGrows a b) (h2 : OutGrows b c) :
    OutGrows a c := by
  obtain ⟨x, hx⟩ := h1
  obtain ⟨y, hy⟩ := h2
  exact ⟨x ++ y, by rw [hy, hx, List.append_assoc]⟩

theorem outGrows_of_out_eq {a b : State} (h : b.out = a.out) : OutGrows a b :=
  ⟨[], by simp [h]⟩

theorem outGrows_push (st : State) (f : Str) : OutGrows st (push st f) := ⟨[f], rfl⟩

theorem outGrows_flushPara (st : State) : OutGrows st (flushPara st) := by
  unfold flushPara
  split
  · exact outGrows_refl st
  · exact ⟨[paraHtml st.paraBuf], rfl⟩

theorem outGrows_closeUl (st : State) : OutGrows st (closeUl st) := by
  unfold closeUl
  split
  · exact ⟨[ulClose], rfl⟩
  · exact outGrows_refl st

theorem outGrows_closeOl (st : State) : OutGrows st (closeOl st) := by
  unfold closeOl
  split
  · exact ⟨[olClose], rfl⟩
  · exact outGrows_refl st

theorem outGrows_openUl (st : State) : OutGrows st (openUl st) := by
  unfold openUl
  split
  · exact ⟨[ulOpen], rfl⟩
  · exact outGrows_refl st

theorem outGrows_openOl (st : State) : OutGrows st (openOl st) := by
  unfold openOl
  split
  · exact ⟨[olOpen], rfl⟩
  · exact outGrows_refl st

theorem outGrows_closeLists (st : State) : OutGrows st (closeLists st) :=
  outGrows_trans (outGrows_closeUl st) (outGrows_closeOl _)

theorem outGrows_step (st : State) (line : Str) : OutGrows st (step st line) := by
  have hfc : OutGrows st (closeLists (flushPara st)) :=
    outGrows_trans (outGrows_flushPara st) (outGrows_closeLists _)
  unfold step
  split
  · split
    · exact outGrows_trans hfc (outGrows_of_out_eq rfl)
    · exact outGrows_trans (outGrows_push st _) (outGrows_of_out_eq rfl)
  · split
    · exact outGrows_of_out_eq rfl
    · simp only
      split
      · exact hfc
      · split
        · exact outGrows_trans hfc (outGrows_push _ _)
        · split
          · exact outGrows_trans (outGrows_flushPara st) (outGrows_trans (outGrows_closeOl _)
              (outGrows_trans (outGrows_openUl _) (outGrows_push _ _)))
          · split
            · exact outGrows_trans (outGrows_flushPara st) (outGrows_trans
                (outGrows_closeUl _) (outGrows_trans (outGrows_openOl _) (outGrows_push _ _)))
            · exact outGrows_of_out_eq rfl

theorem outGrows_finish (st : State) : OutGrows st (finish st) := by
  unfold finish
  split
  · exact outGrows_trans (outGrows_flushPara st) (outGrows_closeLists _)
  · exact outGrows_push st _

theorem outGrows_foldl (ls : List Str) : ∀ st : State, OutGrows st (ls.foldl step st) := by
  induction ls with
  | nil => intro st; exact outGrows_refl st
  | cons l ls ih => intro st; exact outGrows_trans (outGrows_step st l) (ih _)

/-- The fragments of an input, seen from a line in the middle: what the
loop body leaves after that line, followed by what is emitted later. -/
theorem fragments_split (content : Str) (pre post : List Str) (line : Str)
    (hlines : lines content = pre ++ line :: post) :
    ∃ more, fragments content = (step (runLines pre) line).out ++ more := by
  unfold fragments
  have e : runLines (lines content) = post.foldl step (step (runLines pre) line) := by
    unfold runLines
    rw [hlines, List.foldl_append, List.foldl_cons]
  rw [e]
  exact outGrows_trans (outGrows_foldl post _) (outGrows_finish _)

/-- C9: when an ordered list line arrives while an unordered list is open,
the fragments so far (with the pending paragraph, if any) are followed by
`</ul>`, immediately by the `ol` start tag, and then by the new item; and
when an unordered list line arrives while an ordered list is open, by
`</ol>`, immediately by the `ul` start tag, and then by the new item. -/
theorem list_switch_boundary (content : Str) (pre post : List Str) (line t : Str)
    (hlines : lines content = pre ++ line :: post) :
    ((runLines pre).inUl = true → olMatch (trim line) = some t →
        ∃ more, fragments content =
          (flushPara (runLines pre)).out ++ [ulClose, olOpen, liHtml t] ++ more) ∧
      ((runLines pre).inOl = true → ulMatch (trim line) = some t →
        ∃ more, fragments content =
          (flushPara (runLines pre)).out ++ [olClose, ulOpen, liHtml t] ++ more) := by
  obtain ⟨more, hmore⟩ := fragments_split content pre post line hlines
  obtain ⟨hc1, -, hc3⟩ := consistent_runLines pre
  constructor
  · intro hu hm
    have ho : (runLines pre).inOl = false := hc3 hu
    have hin : (runLines pre).inCode = false := by
      cases h : (runLines pre).inCode
      · rfl
      · rw [(hc1 h).2.1] at hu
        exact absurd hu (by decide)
    obtain ⟨hf, hne, hh, hul, hol⟩ := olItem_of_match hm
    refine ⟨more, ?_⟩
    rw [hmore, step_ol hin hf hne hh hul hol]
    simp [push, openOl, closeUl, hu, ho]
  · intro ho hm
    have hu : (runLines pre).inUl = false := by
      cases h : (runLines pre).inUl
      · rfl
      · rw [hc3 h] at ho
        exact absurd ho (by decide)
    have hin : (runLines pre).inCode = false := by
      cases h : (runLines pre).inCode
      · rfl
      · rw [(hc1 h).2.2] at ho
        exact absurd ho (by decide)
    obtain ⟨hf, hne, hh, hul⟩ := ulItem_of_match hm
    refine ⟨more, ?_⟩
    rw [hmore, step_ul hin hf hne hh hul]
    simp [push, openUl, closeOl, hu, ho]

/-- The statement of C9 at the input of the specification and at its mirror
image. -/
theorem list_switch_boundary_witness :
    (∃ more, fragments "- a\n1. b".toList =
        [ulOpen, liHtml "a".toList] ++ [ulClose, olOpen, liHtml "b".toList] ++ more) ∧
      (∃ more, fragments "1. a\n* b\nrest".toList =
        [olOpen, liHtml "a".toList] ++ [olClose, ulOpen, liHtml "b".toList] ++ more) :=
  ⟨(list_switch_boundary "- a\n1. b".toList ["- a".toList] [] "1. b".toList "b".toList
      (by decide)).1 (by decide) (by decide),
    (list_switch_boundary "1. a\n* b\nrest".toList ["1. a".toList] ["rest".toList]
      "* b".toList "b".toList (by decide)).2 (by decide) (by decide)⟩

/-! ## Paragraphs -/

theorem foldl_plain (ls : List Str) (h : ∀ l ∈ ls, PlainLine l) :
    ∀ st : State, st.inCode = false →
      ls.foldl step st = { st with paraBuf := st.paraBuf ++ ls } := by
  induction ls with
  | nil => intro st _; simp
  | cons l ls ih =>
    intro st hin
    obtain ⟨hne, hf, hh, hu, ho⟩ := h l (List.mem_cons_self l ls)
    have hrest := ih (fun x hx => h x (List.mem_cons_of_mem l hx))
      { st with paraBuf := st.paraBuf ++ [l] } hin
    rw [List.foldl_cons, step_plain hin hf hne hh hu ho, hrest]
    simp

/-- C10: for every non-empty sequence of plain lines (not blank, not
starting with the fence delimiter, matched by none of the heading and list
expressions) that is the whole line stream of the input, `parseContent`
emits a single paragraph fragment whose content is `escapeHtml` of each raw
line, each escaped on its own, joined by `<br>` in input order. -/
theorem plain_lines_one_paragraph (content : Str) (ls : List Str) (hne : ls ≠ [])
    (hlines : lines content = ls) (hplain : ∀ l ∈ ls, PlainLine l) :
    fragments content = [paraFrag (join "<br>".toList (ls.map escapeHtml))] ∧
      parseContent content = paraFrag (join "<br>".toList (ls.map escapeHtml)) := by
  have hfr : fragments content = [paraFrag (join "<br>".toList (ls.map escapeHtml))] := by
    unfold fragments runLines
    rw [hlines, foldl_plain ls hplain initState rfl]
    have hlen : ls.length ≠ 0 := fun h => hne (List.length_eq_zero.mp h)
    simp [finish, initState, flushPara, closeLists, closeUl, closeOl, paraHtml, hlen]
  refine ⟨hfr, ?_⟩
  unfold parseContent
  rw [hfr]
  simp

/-- The statement of C10 at the two lines of the specification and at
lines that need escaping. -/
theorem plain_lines_one_paragraph_witness :
    parseContent "line one\nline two".toList =
        "<p class=\"my-3\">line one<br>line two</p>".toList ∧
      parseContent "a < b\n  #no heading\n-x".toList =
        "<p class=\"my-3\">a &lt; b<br>  #no heading<br>-x</p>".toList :=
  ⟨(plain_lines_one_paragraph "line one\nline two".toList
      ["line one".toList, "line two".toList] (by decide) (by decide) (by decide)).2,
    (plain_lines_one_paragraph "a < b\n  #no heading\n-x".toList
      ["a < b".toList, "  #no heading".toList, "-x".toList]
      (by decide) (by decide) (by decide)).2⟩

/-! ## Blank input -/

/-- A line that is empty after trimming does not start with the fence
delimiter. -/
theorem startsWith_fence_false_of_blank {l : Str} (h : trim l = []) :
    startsWith l fence = false := by
  cases hs : startsWith l fence
  · rfl
  · exfalso
    cases l with
    | nil => simp [startsWith, fence] at hs
    | cons c r =>
      have hc : c = backtick := by
        have : (backtick == c) = true := by
          revert hs
          simp [startsWith, fence, List.isPrefixOf, backtick]
          intro h1 _
          exact h1
        exact (beq_iff_eq.mp this).symm
      subst hc
      have hh := @trim_head_of_cons backtick r (by decide)
      rw [h] at hh
      simp at hh

/-- Outside a fence a blank line flushes the paragraph and closes the
lists, and emits nothing itself. -/
theorem step_blank {st : State} {l : Str} (hin : st.inCode = false) (h : trim l = []) :
    step st l = closeLists (flushPara st) := by
  simp [step, startsWith_fence_false_of_blank h, hin, h]

theorem foldl_blank_init (ls : List Str) (h : ∀ l ∈ ls, trim l = []) :
    ls.foldl step initState = initState := by
  induction ls with
  | nil => rfl
  | cons l ls ih =>
    have e : step initState l = initState := by
      rw [step_blank rfl (h l (List.mem_cons_self l ls))]
      decide
    rw [List.foldl_cons, e, ih (fun x hx => h x (List.mem_cons_of_mem l hx))]

/-- C12: every input all of whose lines are empty after trimming emits no
fragment and returns the empty string; the empty input is one of them. -/
theorem blank_input_empty (content : Str) (h : ∀ l ∈ lines content, trim l = []) :
    fragments content = [] ∧ parseContent content = [] ∧ parseContent [] = [] := by
  have hfr : fragments content = [] := by
    unfold fragments runLines
    rw [foldl_blank_init _ h]
    decide
  refine ⟨hfr, ?_, by decide⟩
  unfold parseContent
  rw [hfr]
  rfl

/-- The statement of C12 at the empty input and at an input of blank lines
of spaces and tabs with both kinds of line ending. -/
theorem blank_input_empty_witness :
    parseContent "".toList = [] ∧ parseContent "  \n\t \r\n\n ".toList = [] :=
  ⟨(blank_input_empty "".toList (by decide)).2.1,
    (blank_input_empty "  \n\t \r\n\n ".toList (by decide)).2.1⟩

/-! ## Line endings -/

theorem replaceCRLF_append_of_no_cr (a s : Str) (h : '\r' ∉ a) :
    replaceCRLF (a ++ s) = a ++ replaceCRLF s := by
  induction a with
  | nil => rfl
  | cons c a ih =>
    have hc : c ≠ '\r' := fun e => h (by simp [e])
    rw [List.cons_append, replaceCRLF_cons_of_ne hc,
      ih (fun e => h (List.mem_cons_of_mem c e))]
    rfl

theorem replaceCRLF_of_no_cr (a : Str) (h : '\r' ∉ a) : replaceCRLF a = a := by
  have := replaceCRLF_append_of_no_cr a [] h
  simpa [replaceCRLF] using this

theorem replaceCRLF_crlf (s : Str) :
    replaceCRLF ('\r' :: '\n' :: s) = '\n' :: replaceCRLF s := by
  simp [replaceCRLF]

/-- Lines without carriage return: joined by CR LF and then normalised,
they are the lines joined by LF. -/
theorem replaceCRLF_join_crlf (ls : List Str) (h : ∀ l ∈ ls, '\r' ∉ l) :
    replaceCRLF (join "\r\n".toList ls) = join "\n".toList ls := by
  induction ls with
  | nil => rfl
  | cons a r ih =>
    cases r with
    | nil =>
      rw [join_singleton, join_singleton]
      exact replaceCRLF_of_no_cr a (h a (by simp))
    | cons b r =>
      have e1 : join "\r\n".toList (a :: b :: r) =
          a ++ '\r' :: '\n' :: join "\r\n".toList (b :: r) := by
        rw [join_cons_cons]; simp
      have e2 : join "\n".toList (a :: b :: r) = a ++ '\n' :: join "\n".toList (b :: r) := by
        rw [join_cons_cons]; simp
      rw [e1, e2, replaceCRLF_append_of_no_cr _ _ (h a (by simp)), replaceCRLF_crlf,
        ih (fun l hl => h l (List.mem_cons_of_mem a hl))]

theorem not_mem_join_lf (ls : List Str) (h : ∀ l ∈ ls, '\r' ∉ l) :
    '\r' ∉ join "\n".toList ls := by
  induction ls with
  | nil => decide
  | cons a r ih =>
    cases r with
    | nil => rw [join_singleton]; exact h a (by simp)
    | cons b r =>
      rw [join_cons_cons]
      intro hm
      rcases List.mem_append.mp hm with hm | hm
      · rcases List.mem_append.mp hm with hm | hm
        · exact h a (by simp) hm
        · revert hm; decide
      · exact ih (fun l hl => h l (List.mem_cons_of_mem a hl)) hm

/-- C13: for every list of lines containing no carriage return and no line
feed, the lines joined with CR LF and the lines joined with LF have the same
line stream, which is the list itself when it is not empty, and so the same
output. -/
theorem crlf_normalised (ls : List Str) (h : ∀ l ∈ ls, '\r' ∉ l ∧ '\n' ∉ l) :
    lines (join "\r\n".toList ls) = lines (join "\n".toList ls) ∧
      (ls ≠ [] → lines (join "\r\n".toList ls) = ls) ∧
      parseContent (join "\r\n".toList ls) = parseContent (join "\n".toList ls) := by
  have hcr : ∀ l ∈ ls, '\r' ∉ l := fun l hl => (h l hl).1
  have hl : lines (join "\r\n".toList ls) = lines (join "\n".toList ls) := by
    unfold lines
    rw [replaceCRLF_join_crlf ls hcr, replaceCRLF_of_no_cr _ (not_mem_join_lf ls hcr)]
  refine ⟨hl, fun hne => ?_, ?_⟩
  · rw [hl]
    refine lines_join ls hne (fun l hm => ⟨(h l hm).2, fun hlast => (h l hm).1 ?_⟩)
    exact List.mem_of_mem_getLast? hlast
  · unfold parseContent fragments
    rw [hl]

/-- The statement of C13 at a text with a heading, a list and a paragraph. -/
theorem crlf_normalised_witness :
    parseContent "# T\r\n- a\r\n\r\nx < y".toList = parseContent "# T\n- a\n\nx < y".toList :=
  (crlf_normalised ["# T".toList, "- a".toList, [], "x < y".toList] (by decide)).2.2

/-! ## Invariants of the loop -/

/-- C14: after every processed line, that is for the state after any number
of lines of any input, at most one of the two buffers is in use: inside a
fence the paragraph buffer is empty, and outside a fence the code buffer is
empty. -/
theorem buffers_exclusive (content : Str) (n : Nat) :
    ((runLines ((lines content).take n)).inCode = true →
        (runLines ((lines content).take n)).paraBuf = []) ∧
      ((runLines ((lines content).take n)).inCode = false →
        (runLines ((lines content).take n)).codeBuf = []) :=
  ⟨fun h => ((consistent_runLines _).1 h).1, (consistent_runLines _).2.1⟩

/-- The statement of C14 inside and after a fence that follows a paragraph. -/
theorem buffers_exclusive_witness :
    (runLines ((lines "p\n```\nc\n```\nq".toList).take 3)).paraBuf = [] ∧
      (runLines ((lines "p\n```\nc\n```\nq".toList).take 5)).codeBuf = [] :=
  ⟨(buffers_exclusive "p\n```\nc\n```\nq".toList 3).1 (by decide),
    (buffers_exclusive "p\n```\nc\n```\nq".toList 5).2 (by decide)⟩

/-- C15: after every processed line, that is for the state after any number
of lines of any input, the two list flags are never both true, and both are
false inside a fence. -/
theorem list_flags_exclusive (content : Str) (n : Nat) :
    ¬ ((runLines ((lines content).take n)).inUl = true ∧
        (runLines ((lines content).take n)).inOl = true) ∧
      ((runLines ((lines content).take n)).inCode = true →
        (runLines ((lines content).take n)).inUl = false ∧
          (runLines ((lines content).take n)).inOl = false) := by
  obtain ⟨h1, -, h3⟩ := consistent_runLines ((lines content).take n)
  refine ⟨fun ⟨hu, ho⟩ => ?_, fun h => (h1 h).2⟩
  rw [h3 hu] at ho
  exact absurd ho (by decide)

/-- The statement of C15 inside a fence opened while a list was open. -/
theorem list_flags_exclusive_witness :
    (runLines ((lines "- a\n1. b\n```\nc".toList).take 4)).inUl = false ∧
      (runLines ((lines "- a\n1. b\n```\nc".toList).take 4)).inOl = false :=
  (list_flags_exclusive "- a\n1. b\n```\nc".toList 4).2 (by decide)

/-! ## Blank lines as separators -/

/-- Outside a fence the language tag is the default `text`. -/
theorem codeLang_step (st : State) (line : Str)
    (h : st.inCode = false → st.codeLang = "text".toList) :
    (step st line).inCode = false → (step st line).codeLang = "text".toList := by
  unfold step
  split
  · split
    · simp
    · simp
  · split
    · next hc => intro hf; simp [hc] at hf
    · next hc =>
      have hcf : st.inCode = false := by simpa using hc
      have ht := h hcf
      simp only
      split
      · simp [ht]
      · split
        · simp [push, ht]
        · split
          · intro _
            simp only [push, openUl, closeOl]
            split <;> split <;> simp [ht]
          · split
            · intro _
              simp only [push, openOl, closeUl]
              split <;> split <;> simp [ht]
            · intro _; exact ht

theorem codeLang_runLines (ls : List Str) :
    (runLines ls).inCode = false → (runLines ls).codeLang = "text".toList :=
  foldl_step_induction (fun st => st.inCode = false → st.codeLang = "text".toList)
    codeLang_step ls initState (fun _ => rfl)

theorem state_eta (s : State) :
    s = ⟨s.out, s.inCode, s.codeLang, s.codeBuf, s.paraBuf, s.inUl, s.inOl⟩ := rfl

theorem flushPara_prependOut (x : List Str) (st : State) :
    flushPara (prependOut x st) = prependOut x (flushPara st) := by
  unfold flushPara prependOut
  split <;> simp_all

theorem closeUl_prependOut (x : List Str) (st : State) :
    closeUl (prependOut x st) = prependOut x (closeUl st) := by
  unfold closeUl prependOut
  split <;> simp_all

theorem closeOl_prependOut (x : List Str) (st : State) :
    closeOl (prependOut x st) = prependOut x (closeOl st) := by
  unfold closeOl prependOut
  split <;> simp_all

theorem openUl_prependOut (x : List Str) (st : State) :
    openUl (prependOut x st) = prependOut x (openUl st) := by
  unfold openUl prependOut
  split <;> simp_all

theorem openOl_prependOut (x : List Str) (st : State) :
    openOl (prependOut x st) = prependOut x (openOl st) := by
  unfold openOl prependOut
  split <;> simp_all

theorem closeLists_prependOut (x : List Str) (st : State) :
    closeLists (prependOut x st) = prependOut x (closeLists st) := by
  unfold closeLists
  rw [closeUl_prependOut, closeOl_prependOut]

theorem push_prependOut (x : List Str) (st : State) (f : Str) :
    push (prependOut x st) f = prependOut x (push st f) := by
  simp [push, prependOut]

/-- The loop body does not read the fragments emitted so far: fragments put
before them stay in front. -/
theorem step_prependOut (x : List Str) (st : State) (line : Str) :
    step (prependOut x st) line = prependOut x (step st line) := by
  have hc : (prependOut x st).inCode = st.inCode := rfl
  have hl : (prependOut x st).codeLang = st.codeLang := rfl
  have hb : (prependOut x st).codeBuf = st.codeBuf := rfl
  have hp : (prependOut x st).paraBuf = st.paraBuf := rfl
  unfold step
  simp only [hc, hl, hb, hp, flushPara_prependOut, closeLists_prependOut, closeOl_prependOut,
    closeUl_prependOut, openUl_prependOut, openOl_prependOut, push_prependOut]
  split
  · split
    · rfl
    · rfl
  · split
    · rfl
    · split
      · rfl
      · split
        · rfl
        · split
          · rfl
          · split
            · rfl
            · rfl

theorem finish_prependOut (x : List Str) (st : State) :
    finish (prependOut x st) = prependOut x (finish st) := by
  have hc : (prependOut x st).inCode = st.inCode := rfl
  unfold finish
  simp only [hc, flushPara_prependOut, closeLists_prependOut, push_prependOut]
  split <;> rfl

theorem foldl_prependOut (x : List Str) (ls : List Str) :
    ∀ st : State, ls.foldl step (prependOut x st) = prependOut x (ls.foldl step st) := by
  induction ls with
  | nil => intro st; rfl
  | cons l ls ih => intro st; rw [List.foldl_cons, step_prependOut, ih, List.foldl_cons]

/-- Outside a fence the end of the input leaves the initial state, apart
from the fragments emitted. -/
theorem finish_eq_init (ls : List Str) (hin : (runLines ls).inCode = false) :
    finish (runLines ls) = prependOut (finish (runLines ls)).out initState := by
  have hcb := (consistent_runLines ls).2.1 hin
  have hcl := codeLang_runLines ls hin
  have hf : finish (runLines ls) = closeLists (flushPara (runLines ls)) := by
    simp [finish, hin]
  rw [hf, state_eta (closeLists (flushPara (runLines ls)))]
  simp [prependOut, initState, hin, hcb, hcl]

/-- Outside a fence an empty line does what the end of the input does. -/
theorem step_empty_eq_finish {st : State} (hin : st.inCode = false) :
    step st [] = finish st := by
  rw [step_blank hin (by decide)]
  simp [finish, hin]

theorem lines_cons_lf (b : Str) : lines ('\n' :: b) = [] :: lines b := by
  have := lines_append_lf [] b (by simp)
  simpa [lines, replaceCRLF, splitLines] using this

/-- Two texts separated by a blank line, the first ending outside a fence
and not with a carriage return: the fragments of the first, then the
fragments of the second. -/
theorem fragments_blank_sep (a b : Str) (hin : (runLines (lines a)).inCode = false)
    (hcr : a.getLast? ≠ some '\r') :
    fragments (a ++ "\n\n".toList ++ b) = fragments a ++ fragments b := by
  have e : a ++ "\n\n".toList ++ b = a ++ '\n' :: ('\n' :: b) := by simp
  have hl : lines (a ++ "\n\n".toList ++ b) = lines a ++ [] :: lines b := by
    rw [e, lines_append_lf a _ hcr, lines_cons_lf]
  unfold fragments
  have hr : runLines (lines (a ++ "\n\n".toList ++ b)) =
      prependOut (finish (runLines (lines a))).out (runLines (lines b)) := by
    rw [hl]
    unfold runLines
    rw [List.foldl_append, List.foldl_cons]
    have h1 := step_empty_eq_finish hin
    unfold runLines at h1
    rw [h1]
    have h2 := finish_eq_init (lines a) hin
    unfold runLines at h2
    conv_lhs => rw [h2, foldl_prependOut]
  rw [hr, finish_prependOut]
  rfl

theorem runLines_plain_single {a : Str} (ha : PlainLine a) (hna : '\n' ∉ a) :
    runLines (lines a) = { initState with paraBuf := [a] } := by
  unfold runLines
  rw [lines_of_no_lf a hna, foldl_plain [a] (fun l hl => by rw [List.mem_singleton.mp hl]; exact ha)
    initState rfl]
  rfl

theorem fragments_plain_single {a : Str} (ha : PlainLine a) (hna : '\n' ∉ a) :
    fragments a = [paraFrag (escapeHtml a)] := by
  unfold fragments
  rw [runLines_plain_single ha hna]
  simp [finish, initState, flushPara, closeLists, closeUl, closeOl, paraHtml, join_singleton]

/-- C11, as stated, fails: when the first plain line ends with a carriage
return, that carriage return and the following line feed are replaced
together, and the first paragraph holds the line without it. -/
theorem two_paragraphs_cr_lost :
    PlainLine "x\r".toList ∧ PlainLine "y".toList ∧
      parseContent ("x\r".toList ++ "\n\n".toList ++ "y".toList) =
        "<p class=\"my-3\">x</p><p class=\"my-3\">y</p>".toList ∧
      parseContent ("x\r".toList ++ "\n\n".toList ++ "y".toList) ≠
        paraFrag (escapeHtml "x\r".toList) ++ paraFrag (escapeHtml "y".toList) := by
  decide

/-- C11, amended: for every two plain lines `a` and `b` (without line feed),
the first not ending with a carriage return, `parseContent(a + "\n\n" + b)`
is exactly two paragraph fragments, the first holding `escapeHtml(a)` and
the second `escapeHtml(b)`, in that order; the blank line emits nothing. -/
theorem two_paragraphs (a b : Str) (ha : PlainLine a) (hb : PlainLine b) (hna : '\n' ∉ a)
    (hnb : '\n' ∉ b) (hcr : a.getLast? ≠ some '\r') :
    fragments (a ++ "\n\n".toList ++ b) = [paraFrag (escapeHtml a), paraFrag (escapeHtml b)] ∧
      parseContent (a ++ "\n\n".toList ++ b) =
        paraFrag (escapeHtml a) ++ paraFrag (escapeHtml b) := by
  have hin : (runLines (lines a)).inCode = false := by
    rw [runLines_plain_single ha hna]
    rfl
  have hfr : fragments (a ++ "\n\n".toList ++ b) =
      [paraFrag (escapeHtml a), paraFrag (escapeHtml b)] := by
    rw [fragments_blank_sep a b hin hcr, fragments_plain_single ha hna,
      fragments_plain_single hb hnb]
    rfl
  refine ⟨hfr, ?_⟩
  unfold parseContent
  rw [hfr]
  simp

/-- The amended C11 at two lines that need escaping. -/
theorem two_paragraphs_witness :
    parseContent ("a < b".toList ++ "\n\n".toList ++ "c & d".toList) =
      "<p class=\"my-3\">a &lt; b</p><p class=\"my-3\">c &amp; d</p>".toList :=
  (two_paragraphs "a < b".toList "c & d".toList (by decide) (by decide) (by decide)
    (by decide) (by decide)).2

/-- C16: for all strings `a` and `b` such that `a` does not end inside an
open fence and does not end with a carriage return,
`parseContent(a + "\n\n" + b) = parseContent(a) + parseContent(b)`; after
`a` an empty line leaves the state the end of the input leaves, which is the
initial state apart from the fragments emitted. -/
theorem blank_line_compositional (a b : Str) (hin : (runLines (lines a)).inCode = false)
    (hcr : a.getLast? ≠ some '\r') :
    parseContent (a ++ "\n\n".toList ++ b) = parseContent a ++ parseContent b ∧
      step (runLines (lines a)) [] = finish (runLines (lines a)) ∧
      finish (runLines (lines a)) = prependOut (fragments a) initState := by
  refine ⟨?_, step_empty_eq_finish hin, finish_eq_init (lines a) hin⟩
  unfold parseContent
  rw [fragments_blank_sep a b hin hcr]
  simp

/-- The statement of C16 at a text that ends in an open list, followed by a
text that starts with a list of the other kind. -/
theorem blank_line_compositional_witness :
    parseContent ("# h\n- x".toList ++ "\n\n".toList ++ "1. y\nz".toList) =
      parseContent "# h\n- x".toList ++ parseContent "1. y\nz".toList :=
  (blank_line_compositional "# h\n- x".toList "1. y\nz".toList (by decide) (by decide)).1

/-! ## Balance of the list tags -/

theorem scanFragments_append (xs ys : List Str) :
    ∀ o : OpenList, scanFragments o (xs ++ ys) =
      match scanFragments o xs with
      | some o1 => scanFragments o1 ys
      | none => none := by
  induction xs with
  | nil => intro o; rfl
  | cons x xs ih =>
    intro o
    simp only [List.cons_append, scanFragments]
    cases scanFragment o x with
    | none => rfl
    | some o1 => exact ih o1

theorem scanFragments_push {o o1 o2 : OpenList} {xs : List Str} {f : Str}
    (h1 : scanFragments o xs = some o1) (h2 : scanFragment o1 f = some o2) :
    scanFragments o (xs ++ [f]) = some o2 := by
  rw [scanFragments_append, h1]
  simp [scanFragments, h2]

theorem isLi_take {f : Str} (h : isLi f = true) : f.take 2 = "<l".toList := by
  obtain ⟨u, hu⟩ := List.isPrefixOf_iff_prefix.mp h
  rw [← hu]
  rfl

/-- A fragment that starts like a paragraph, a code block or a heading is
passed over by the reading. -/
theorem scanFragment_neutral {f : Str} (h : f.take 2 = "<p".toList ∨ f.take 2 = "<h".toList)
    (o : OpenList) : scanFragment o f = some o := by
  have h1 : f ≠ ulOpen := by
    rintro rfl
    revert h
    decide
  have h2 : f ≠ olOpen := by
    rintro rfl
    revert h
    decide
  have h3 : f ≠ ulClose := by
    rintro rfl
    revert h
    decide
  have h4 : f ≠ olClose := by
    rintro rfl
    revert h
    decide
  have h5 : isLi f = false := by
    cases hl : isLi f
    · rfl
    · exfalso
      rw [isLi_take hl] at h
      revert h
      decide
  simp [scanFragment, h1, h2, h3, h4, h5]

theorem scanFragment_li (t : Str) (o : OpenList) (ho : o ≠ OpenList.closed) :
    scanFragment o (liHtml t) = some o := by
  have h3 : (liHtml t).take 3 = "<li".toList := rfl
  have h1 : liHtml t ≠ ulOpen := by
    intro e
    rw [e] at h3
    revert h3
    decide
  have h2 : liHtml t ≠ olOpen := by
    intro e
    rw [e] at h3
    revert h3
    decide
  have h4 : liHtml t ≠ ulClose := by
    intro e
    rw [e] at h3
    revert h3
    decide
  have h5 : liHtml t ≠ olClose := by
    intro e
    rw [e] at h3
    revert h3
    decide
  have h6 : isLi (liHtml t) = true :=
    List.isPrefixOf_iff_prefix.mpr ⟨escapeHtml t ++ "</li>".toList, by simp [liHtml, liFrag]⟩
  simp [scanFragment, h1, h2, h4, h5, h6, ho]

theorem tracks_of_fields {a b : State} (ho : b.out = a.out) (hu : b.inUl = a.inUl)
    (hl : b.inOl = a.inOl) (h : Tracks a) : Tracks b := by
  unfold Tracks openOf at *
  rw [ho, hu, hl]
  exact h

theorem tracks_push_neutral {st : State} {f : Str}
    (hf : f.take 2 = "<p".toList ∨ f.take 2 = "<h".toList) (h : Tracks st) :
    Tracks (push st f) :=
  scanFragments_push h (scanFragment_neutral hf _)

theorem tracks_flushPara {st : State} (h : Tracks st) : Tracks (flushPara st) := by
  unfold flushPara
  split
  · exact h
  · exact @tracks_push_neutral { st with paraBuf := [] } (paraHtml st.paraBuf) (Or.inl rfl) h

theorem tracks_closeUl {st : State} (hx : st.inUl = true → st.inOl = false) (h : Tracks st) :
    Tracks (closeUl st) := by
  unfold closeUl
  split
  · next hu =>
    have ho := hx hu
    unfold Tracks at *
    refine scanFragments_push h ?_
    simp [openOf, hu, ho]
    decide
  · exact h

theorem tracks_closeOl {st : State} (hx : st.inUl = true → st.inOl = false) (h : Tracks st) :
    Tracks (closeOl st) := by
  unfold closeOl
  split
  · next ho =>
    have hu : st.inUl = false := by
      cases hu : st.inUl
      · rfl
      · rw [hx hu] at ho
        exact absurd ho (by decide)
    unfold Tracks at *
    refine scanFragments_push h ?_
    simp [openOf, hu, ho]
    decide
  · exact h

theorem tracks_openUl {st : State} (ho : st.inOl = false) (h : Tracks st) :
    Tracks (openUl st) := by
  unfold openUl
  split
  · next hu =>
    have hu1 : st.inUl = false := by simpa using hu
    unfold Tracks at *
    refine scanFragments_push h ?_
    simp [openOf, hu1, ho]
    decide
  · exact h

theorem tracks_openOl {st : State} (hu : st.inUl = false) (h : Tracks st) :
    Tracks (openOl st) := by
  unfold openOl
  split
  · next ho =>
    have ho1 : st.inOl = false := by simpa using ho
    unfold Tracks at *
    refine scanFragments_push h ?_
    simp [openOf, hu, ho1]
    decide
  · exact h

@[simp] theorem closeUl_inUl (st : State) : (closeUl st).inUl = false := by
  unfold closeUl
  cases h : st.inUl <;> simp [h]

@[simp] theorem closeUl_inOl (st : State) : (closeUl st).inOl = st.inOl := by
  unfold closeUl
  split <;> rfl

@[simp] theorem closeOl_inOl (st : State) : (closeOl st).inOl = false := by
  unfold closeOl
  cases h : st.inOl <;> simp [h]

@[simp] theorem closeOl_inUl (st : State) : (closeOl st).inUl = st.inUl := by
  unfold closeOl
  split <;> rfl

@[simp] theorem openUl_inUl (st : State) : (openUl st).inUl = true := by
  unfold openUl
  cases h : st.inUl <;> simp [h]

@[simp] theorem openUl_inOl (st : State) : (openUl st).inOl = st.inOl := by
  unfold openUl
  split <;> rfl

@[simp] theorem openOl_inOl (st : State) : (openOl st).inOl = true := by
  unfold openOl
  cases h : st.inOl <;> simp [h]

@[simp] theorem openOl_inUl (st : State) : (openOl st).inUl = st.inUl := by
  unfold openOl
  split <;> rfl

theorem tracks_closeLists {st : State} (hx : st.inUl = true → st.inOl = false)
    (h : Tracks st) : Tracks (closeLists st) :=
  tracks_closeOl (fun hu => by simp at hu) (tracks_closeUl hx h)

theorem tracks_flush_close {st : State} (hx : st.inUl = true → st.inOl = false)
    (h : Tracks st) : Tracks (closeLists (flushPara st)) :=
  tracks_closeLists (by simpa using hx) (tracks_flushPara h)

theorem tracks_ul_item {st : State} (hx : st.inUl = true → st.inOl = false) (h : Tracks st)
    (t : Str) : Tracks (push (openUl (closeOl (flushPara st))) (liHtml t)) := by
  have h1 : Tracks (openUl (closeOl (flushPara st))) :=
    tracks_openUl (by simp) (tracks_closeOl (by simpa using hx) (tracks_flushPara h))
  refine scanFragments_push h1 (scanFragment_li t _ ?_)
  simp [openOf]

theorem tracks_ol_item {st : State} (hx : st.inUl = true → st.inOl = false) (h : Tracks st)
    (t : Str) : Tracks (push (openOl (closeUl (flushPara st))) (liHtml t)) := by
  have h1 : Tracks (openOl (closeUl (flushPara st))) :=
    tracks_openOl (by simp) (tracks_closeUl (by simpa using hx) (tracks_flushPara h))
  refine scanFragments_push h1 (scanFragment_li t _ ?_)
  simp [openOf]

/-- The loop body keeps the fragments in step with the list flags. -/
theorem tracks_step (st : State) (line : Str) (hc : Consistent st) (h : Tracks st) :
    Tracks (step st line) := by
  have hx := hc.2.2
  unfold step
  split
  · split
    · exact tracks_of_fields rfl rfl rfl (tracks_flush_close hx h)
    · exact tracks_of_fields rfl rfl rfl
        (@tracks_push_neutral st (codeHtml st.codeLang st.codeBuf) (Or.inl rfl) h)
  · split
    · exact tracks_of_fields rfl rfl rfl h
    · simp only
      split
      · exact tracks_flush_close hx h
      · split
        · exact tracks_push_neutral (Or.inr rfl) (tracks_flush_close hx h)
        · split
          · exact tracks_ul_item hx h _
          · split
            · exact tracks_ol_item hx h _
            · exact tracks_of_fields rfl rfl rfl h

theorem consistent_tracks_runLines (ls : List Str) :
    Consistent (runLines ls) ∧ Tracks (runLines ls) :=
  foldl_step_induction (fun st => Consistent st ∧ Tracks st)
    (fun st line h => ⟨consistent_step st line h.1, tracks_step st line h.1 h.2⟩)
    ls initState ⟨by simp [Consistent, initState], rfl⟩

/-- At the end of the input the fragments are balanced. -/
theorem listsBalanced_finish {st : State} (hc : Consistent st) (h : Tracks st) :
    ListsBalanced (finish st).out := by
  unfold finish
  split
  · have ht := tracks_flush_close hc.2.2 h
    unfold Tracks at ht
    rw [ListsBalanced, ht]
    simp [openOf]
  · next hin =>
    have hin1 : st.inCode = true := by simpa using hin
    obtain ⟨-, hu, ho⟩ := hc.1 hin1
    have ht := @tracks_push_neutral st (codeHtml st.codeLang st.codeBuf) (Or.inl rfl) h
    unfold Tracks at ht
    rw [ListsBalanced, ht]
    simp [openOf, push, hu, ho]

/-- In a sequence that can be read, start tags and end tags differ in
number by the lists open before and after. -/
theorem scanFragments_counts (fs : List Str) :
    ∀ o o1 : OpenList, scanFragments o fs = some o1 →
      fs.count ulOpen + fs.count olOpen + depth o =
        fs.count ulClose + fs.count olClose + depth o1 := by
  induction fs with
  | nil =>
    intro o o1 h
    simp only [scanFragments, Option.some.injEq] at h
    simp [h]
  | cons f fs ih =>
    intro o o1 h
    unfold scanFragments at h
    split at h
    · next o2 h2 =>
      have hrec := ih o2 o1 h
      have e1 : (ulOpen == olOpen) = false := by decide
      have e2 : (ulOpen == ulClose) = false := by decide
      have e3 : (ulOpen == olClose) = false := by decide
      have e4 : (olOpen == ulOpen) = false := by decide
      have e5 : (olOpen == ulClose) = false := by decide
      have e6 : (olOpen == olClose) = false := by decide
      have e7 : (ulClose == ulOpen) = false := by decide
      have e8 : (ulClose == olOpen) = false := by decide
      have e9 : (ulClose == olClose) = false := by decide
      have e10 : (olClose == ulOpen) = false := by decide
      have e11 : (olClose == olOpen) = false := by decide
      have e12 : (olClose == ulClose) = false := by decide
      unfold scanFragment at h2
      by_cases c1 : f = ulOpen
      · subst c1
        rw [if_pos rfl] at h2
        split at h2
        · next hcl =>
          simp only [Option.some.injEq] at h2
          subst hcl
          subst h2
          simp only [List.count_cons, beq_self_eq_true, e1, e2, e3, depth] at hrec ⊢
          simp only [if_true, Bool.false_eq_true, if_false] at hrec ⊢
          omega
        · simp at h2
      · rw [if_neg c1] at h2
        by_cases c2 : f = olOpen
        · subst c2
          rw [if_pos rfl] at h2
          split at h2
          · next hcl =>
            simp only [Option.some.injEq] at h2
            subst hcl
            subst h2
            simp only [List.count_cons, beq_self_eq_true, e4, e5, e6, depth] at hrec ⊢
            simp only [if_true, Bool.false_eq_true, if_false] at hrec ⊢
            omega
          · simp at h2
        · rw [if_neg c2] at h2
          by_cases c3 : f = ulClose
          · subst c3
            rw [if_pos rfl] at h2
            split at h2
            · next hcl =>
              simp only [Option.some.injEq] at h2
              subst hcl
              subst h2
              simp only [List.count_cons, beq_self_eq_true, e7, e8, e9, depth] at hrec ⊢
              simp only [if_true, Bool.false_eq_true, if_false] at hrec ⊢
              omega
            · simp at h2
          · rw [if_neg c3] at h2
            by_cases c4 : f = olClose
            · subst c4
              rw [if_pos rfl] at h2
              split at h2
              · next hcl =>
                simp only [Option.some.injEq] at h2
                subst hcl
                subst h2
                simp only [List.count_cons, beq_self_eq_true, e10, e11, e12, depth] at hrec ⊢
                simp only [if_true, Bool.false_eq_true, if_false] at hrec ⊢
                omega
              · simp at h2
            · rw [if_neg c4] at h2
              have h0 : o2 = o := by
                split at h2
                · split at h2
                  · simp at h2
                  · exact (Option.some.inj h2).symm
                · exact (Option.some.inj h2).symm
              subst h0
              have b1 : (f == ulOpen) = false := by simpa using c1
              have b2 : (f == olOpen) = false := by simpa using c2
              have b3 : (f == ulClose) = false := by simpa using c3
              have b4 : (f == olClose) = false := by simpa using c4
              simp only [List.count_cons, b1, b2, b3, b4, Bool.false_eq_true, if_false,
                Nat.add_zero]
              exact hrec
    · simp at h

/-- The reading is not satisfied by everything: it rejects a list left
open, a list opened inside another, an end tag of the other kind, and an
item outside a list. -/
theorem listsBalanced_rejects :
    ¬ ListsBalanced [ulOpen, liHtml "a".toList] ∧
      ¬ ListsBalanced [ulOpen, olOpen, olClose, ulClose] ∧
      ¬ ListsBalanced [ulOpen, olClose] ∧
      ¬ ListsBalanced [liHtml "a".toList] := by
  decide

/-- C17: for every input, also one that ends inside an unterminated fence,
the list tags in the sequence of fragments `parseContent` emits are
balanced: every `ul` or `ol` start tag comes when no list is open and is
followed by the end tag of its own kind before any other list start tag,
every list item fragment comes between a start tag and its end tag, no list
is open at the end, and start tags and end tags are equal in number. -/
theorem list_tags_balanced (content : Str) :
    ListsBalanced (fragments content) ∧
      (fragments content).count ulOpen + (fragments content).count olOpen =
        (fragments content).count ulClose + (fragments content).count olClose := by
  obtain ⟨hc, ht⟩ := consistent_tracks_runLines (lines content)
  have hb : ListsBalanced (fragments content) := listsBalanced_finish hc ht
  refine ⟨hb, ?_⟩
  have := scanFragments_counts (fragments content) OpenList.closed OpenList.closed hb
  simpa [depth] using this

/-! ## A paragraph after a list item -/

/-- Text that neither starts nor ends with white space is its own trimmed
form. -/
theorem trim_eq_self {s : Str} (h0 : ∀ c ∈ s.head?, isWhiteSpace c = false)
    (h1 : ∀ c ∈ s.getLast?, isWhiteSpace c = false) : trim s = s := by
  unfold trim
  have hd : s.dropWhile isWhiteSpace = s := by
    cases s with
    | nil => rfl
    | cons c r => exact List.dropWhile_cons_of_neg (by simp [h0 c (by simp)])
  rw [hd, List.rdropWhile_eq_self_iff]
  intro hne
  have := h1 _ (by rw [List.getLast?_eq_getLast s hne]; exact rfl)
  simp [this]

/-- C18, as stated, fails: when the item text holds a carriage return the
first line is not matched by the list expression, no list is opened, and
both lines form one paragraph. -/
theorem item_with_cr_then_paragraph :
    PlainLine "x".toList ∧
      parseContent ("- ".toList ++ "a\rb".toList ++ "\n".toList ++ "x".toList) =
        "<p class=\"my-3\">- a\rb<br>x</p>".toList ∧
      parseContent ("- ".toList ++ "a\rb".toList ++ "\n".toList ++ "x".toList) ≠
        ulOpen ++ liFrag (escapeHtml "a\rb".toList) ++ paraFrag (escapeHtml "x".toList) ++
          ulClose := by
  decide

/-- C18, amended: for every item text `t` that is not empty, holds no line
terminator and neither starts nor ends with white space, and every plain
line `p` (without line feed), `parseContent("- " + t + "\n" + p)` is the
`ul` start tag, `<li>escapeHtml(t)</li>`, the paragraph block of `p`, and
then `</ul>`: the paragraph is buffered while the list stays open and is
emitted before the end tag of the list. -/
theorem paragraph_after_item (t p : Str) (hne : t ≠ []) (ht : ItemText t)
    (hlast : ∀ c ∈ t.getLast?, isWhiteSpace c = false) (hp : PlainLine p) (hnp : '\n' ∉ p) :
    fragments ("- ".toList ++ t ++ "\n".toList ++ p) =
        [ulOpen, liFrag (escapeHtml t), paraFrag (escapeHtml p), ulClose] ∧
      parseContent ("- ".toList ++ t ++ "\n".toList ++ p) =
        ulOpen ++ liFrag (escapeHtml t) ++ paraFrag (escapeHtml p) ++ ulClose ∧
      (runLines (lines ("- ".toList ++ t ++ "\n".toList ++ p))).inUl = true ∧
      (runLines (lines ("- ".toList ++ t ++ "\n".toList ++ p))).paraBuf = [p] := by
  have hlast1 : ("- ".toList ++ t).getLast? = t.getLast? :=
    List.getLast?_append_of_ne_nil _ hne
  have hnl : '\n' ∉ "- ".toList ++ t := by
    intro hm
    rcases List.mem_append.mp hm with hm | hm
    · revert hm; decide
    · have := ht.2 _ hm
      revert this
      decide
  have hcr : ("- ".toList ++ t).getLast? ≠ some '\r' := by
    rw [hlast1]
    intro e
    have := hlast '\r' (by rw [e]; exact rfl)
    revert this
    decide
  have htrim : trim ("- ".toList ++ t) = "- ".toList ++ t :=
    trim_eq_self (fun c hc => by
      have : c = '-' := by simpa using hc.symm
      rw [this]; decide) (by rw [hlast1]; exact hlast)
  have hitem : UlItem ("- ".toList ++ t) t :=
    ulItem_of_shape ⟨'-', " ".toList, Or.inl rfl, by decide, by decide, by rw [htrim]; rfl⟩ ht
  have hl : lines ("- ".toList ++ t ++ "\n".toList ++ p) = ["- ".toList ++ t, p] := by
    have e : "- ".toList ++ t ++ "\n".toList ++ p = ("- ".toList ++ t) ++ '\n' :: p := by simp
    rw [e, lines_append_lf _ _ hcr, lines_of_no_lf _ hnl, lines_of_no_lf _ hnp]
    rfl
  have h1 : step initState ("- ".toList ++ t) =
      { initState with out := [ulOpen, liHtml t], inUl := true } := by
    rw [step_ul rfl hitem.1 hitem.2.1 hitem.2.2.1 hitem.2.2.2]
    rfl
  have hr : runLines (lines ("- ".toList ++ t ++ "\n".toList ++ p)) =
      { initState with out := [ulOpen, liHtml t], inUl := true, paraBuf := [p] } := by
    unfold runLines
    rw [hl, List.foldl_cons, List.foldl_cons, List.foldl_nil, h1,
      step_plain rfl hp.2.1 hp.1 hp.2.2.1 hp.2.2.2.1 hp.2.2.2.2]
    rfl
  have hfr : fragments ("- ".toList ++ t ++ "\n".toList ++ p) =
      [ulOpen, liFrag (escapeHtml t), paraFrag (escapeHtml p), ulClose] := by
    unfold fragments
    rw [hr]
    simp [finish, initState, flushPara, closeLists, closeUl, closeOl, paraHtml, liHtml,
      join_singleton]
  refine ⟨hfr, ?_, by rw [hr], by rw [hr]⟩
  unfold parseContent
  rw [hfr]
  simp

/-- The amended C18 at an item and a paragraph line that need escaping. -/
theorem paragraph_after_item_witness :
    parseContent ("- ".toList ++ "t & u".toList ++ "\n".toList ++ "p < q".toList) =
      ("<ul class=\"list-disc pl-6 my-3 space-y-1\"><li>t &amp; u</li>" ++
        "<p class=\"my-3\">p &lt; q</p></ul>").toList :=
  (paragraph_after_item "t & u".toList "p < q".toList (by decide) (by decide) (by decide)
    (by decide) (by decide)).2.1

/-! ## The matcher on the three expressions -/

theorem matchAtoms_nil (s : Str) (caps : MatchArray) :
    matchAtoms [] s caps = if s = [] then some caps else none := rfl

theorem matchAtoms_cons (a : Atom) (rest : List Atom) (s : Str) (caps : MatchArray) :
    matchAtoms (a :: rest) s caps = backtrack a (matchAtoms rest) s caps (longest a s) := rfl

/-- Before the end of the text `$` fails, whatever the atom gives back. -/
theorem backtrack_end_of_lt (a : Atom) (s : Str) (caps : MatchArray) :
    ∀ k, k < s.length → backtrack a (matchAtoms []) s caps k = none := by
  intro k
  induction k with
  | zero =>
    intro h
    have hs : s ≠ [] := fun e => by simp [e] at h
    simp [backtrack, matchAtoms_nil, hs]
  | succ k ih =>
    intro h
    have hd : s.drop (k + 1) ≠ [] := by
      intro e
      have := List.drop_eq_nil_iff.mp e
      omega
    rw [backtrack]
    split
    · simp only [matchAtoms_nil, hd, if_false]
      exact ih (by omega)
    · rfl

/-- The tail `(.*)$` of the three expressions. -/
theorem matchAtoms_dot (g : Nat) (s : Str) (caps : MatchArray) :
    matchAtoms [dotAtom g] s caps = (dotStarEnd s).map (fun t => setGroup (some g) t caps) := by
  rw [matchAtoms_cons]
  have hl : longest (dotAtom g) s = (s.takeWhile (fun c => !isLineTerminator c)).length := rfl
  by_cases hall : s.all (fun c => !isLineTerminator c) = true
  · have htw : s.takeWhile (fun c => !isLineTerminator c) = s := by
      rw [List.takeWhile_eq_self_iff]
      intro x hx
      exact List.all_eq_true.mp hall x hx
    rw [hl, htw]
    simp only [dotStarEnd, hall, if_true, Option.map_some']
    cases hs : s with
    | nil => simp [backtrack, dotAtom, matchAtoms_nil]
    | cons c r =>
      have e1 : List.drop (r.length + 1) (c :: r) = [] := by simp
      have e2 : List.take (r.length + 1) (c :: r) = c :: r := by simp
      show backtrack (dotAtom g) (matchAtoms []) (c :: r) caps (r.length + 1) = _
      rw [backtrack, if_pos (by simp [dotAtom]), e1, e2]
      simp [matchAtoms_nil, dotAtom]
  · have hlt : longest (dotAtom g) s < s.length := by
      rw [hl]
      have hle := (@List.takeWhile_prefix _ s (fun c => !isLineTerminator c)).length_le
      rcases Nat.lt_or_ge (List.takeWhile (fun c => !isLineTerminator c) s).length s.length
        with h | h
      · exact h
      · exfalso
        apply hall
        have he : List.takeWhile (fun c => !isLineTerminator c) s = s :=
          (List.takeWhile_prefix _).eq_of_length (by omega)
        rw [List.all_eq_true]
        exact List.takeWhile_eq_self_iff.mp he
    rw [backtrack_end_of_lt _ _ _ _ hlt]
    simp [dotStarEnd, hall]

/-- An atom `+` without group on a text that starts with a character
`c`: taking `k + 1` characters at most is taking `k` at most after `c`, or
else `c` alone. -/
theorem backtrack_plus_cons (a : Atom) (hmin : a.min = 1) (hg : a.group = none)
    (cont : Str → MatchArray → Option MatchArray) (c : Char) (r : Str) (caps : MatchArray) :
    ∀ k, backtrack a cont (c :: r) caps (k + 1) =
      match backtrack a cont r caps k with
      | some m => some m
      | none => cont r caps := by
  intro k
  induction k with
  | zero =>
    simp only [backtrack, hmin, hg, setGroup, List.drop_succ_cons, List.drop_zero]
    simp
    cases cont r caps <;> rfl
  | succ k ih =>
    rw [backtrack, if_pos (by omega), ih]
    conv_rhs => rw [backtrack, if_pos (by omega)]
    simp only [hg, setGroup, List.drop_succ_cons]
    cases cont (List.drop (k + 1) r) caps <;> rfl

/-- An unbounded atom `+` without group is the repetition written by
recursion on the text. -/
theorem backtrack_plus (a : Atom) (hmin : a.min = 1) (hmax : a.max = none)
    (hg : a.group = none) (cont : Str → MatchArray → Option MatchArray) (caps : MatchArray) :
    ∀ s, backtrack a cont s caps (longest a s) = plusRec a.cls (fun r => cont r caps) s := by
  intro s
  induction s with
  | nil => simp [longest, hmax, backtrack, hmin, plusRec]
  | cons c r ih =>
    by_cases hc : a.cls c = true
    · have hl : longest a (c :: r) = longest a r + 1 := by
        simp [longest, hmax, List.takeWhile, hc]
      rw [hl, backtrack_plus_cons a hmin hg, ih]
      simp [plusRec, hc]
    · have hl : longest a (c :: r) = 0 := by
        simp [longest, hmax, List.takeWhile, hc]
      rw [hl]
      simp [backtrack, hmin, plusRec, hc]

theorem plusRec_ws (f : Str → MatchArray) (s : Str) :
    plusRec isWhiteSpace (fun r => (dotStarEnd r).map f) s = (wsRest s).map f := by
  induction s with
  | nil => rfl
  | cons c r ih =>
    by_cases hc : isWhiteSpace c = true
    · rw [plusRec, if_pos hc, ih, wsRest, if_pos hc]
      cases wsRest r <;> rfl
    · rw [plusRec, if_neg hc, wsRest, if_neg hc]
      rfl

/-- The tail `\s+(.*)$` of the three expressions. -/
theorem matchAtoms_ws_dot (g : Nat) (s : Str) (caps : MatchArray) :
    matchAtoms [wsAtom, dotAtom g] s caps =
      (wsRest s).map (fun t => setGroup (some g) t caps) := by
  rw [matchAtoms_cons, backtrack_plus wsAtom rfl rfl rfl]
  have e : (fun r => matchAtoms [dotAtom g] r caps) =
      fun r => (dotStarEnd r).map (fun t => setGroup (some g) t caps) := by
    funext r
    exact matchAtoms_dot g r caps
  rw [e]
  exact plusRec_ws _ s

/-- An atom that takes exactly one character, without group. -/
theorem matchAtoms_one (a : Atom) (hmin : a.min = 1) (hmax : a.max = some 1)
    (hg : a.group = none) (rest : List Atom) (s : Str) (caps : MatchArray) :
    matchAtoms (a :: rest) s caps =
      match s with
      | [] => none
      | c :: r => if a.cls c then matchAtoms rest r caps else none := by
  rw [matchAtoms_cons]
  cases s with
  | nil => simp [longest, hmax, backtrack, hmin]
  | cons c r =>
    by_cases hc : a.cls c = true
    · have hl : longest a (c :: r) = 1 := by
        simp [longest, hmax, List.takeWhile, hc]
      rw [hl]
      simp only [backtrack, hmin, hg, setGroup, hc, if_true]
      simp
      cases matchAtoms rest r caps <;> rfl
    · have hl : longest a (c :: r) = 0 := by
        simp [longest, hmax, List.takeWhile, hc]
      rw [hl]
      simp [backtrack, hmin, hc]

/-- The generic matcher on the unordered list expression is `ulMatch`. -/
theorem regexMatch_ul (s : Str) :
    regexMatch ulRegex 1 s = (ulMatch s).map (fun t => [some s, some t]) := by
  unfold regexMatch ulRegex
  rw [matchAtoms_one _ rfl rfl rfl]
  cases s with
  | nil => rfl
  | cons c r =>
    simp only [matchAtoms_ws_dot, ulMatch]
    split <;> simp [setGroup]

theorem plusRec_digits (f : Str → MatchArray) (s : Str) :
    plusRec isDigit (fun r => (dotWsRest r).map f) s = (digitsDot s).map f := by
  induction s with
  | nil => rfl
  | cons c r ih =>
    by_cases hc : isDigit c = true
    · rw [plusRec, if_pos hc, ih, digitsDot, if_pos hc]
      cases digitsDot r <;> rfl
    · rw [plusRec, if_neg hc, digitsDot, if_neg hc]
      rfl

/-- The generic matcher on the ordered list expression is `olMatch`. -/
theorem regexMatch_ol (s : Str) :
    regexMatch olRegex 1 s = (olMatch s).map (fun t => [some s, some t]) := by
  unfold regexMatch olRegex
  rw [matchAtoms_cons, backtrack_plus _ rfl rfl rfl]
  have e : (fun r => matchAtoms
      [{ cls := fun c => c == '.', min := 1, max := some 1, group := none }, wsAtom, dotAtom 1]
      r (some s :: List.replicate 1 none)) =
      fun r => (dotWsRest r).map (fun t => [some s, some t]) := by
    funext r
    rw [matchAtoms_one _ rfl rfl rfl]
    cases r with
    | nil => rfl
    | cons c r1 =>
      simp only [matchAtoms_ws_dot, dotWsRest]
      split <;> simp [setGroup]
  rw [e]
  exact plusRec_digits _ s

theorem wsRest_hash (r : Str) : wsRest ('#' :: r) = none := by
  rw [wsRest, if_neg (by decide)]

theorem wsRest_nil : wsRest [] = none := rfl

/-- The generic matcher on the heading expression is `hMatch`. -/
theorem regexMatch_heading (s : Str) :
    regexMatch headingRegex 2 s =
      (hMatch s).map (fun m => [some s, some (List.replicate m.1 '#'), some m.2]) := by
  unfold regexMatch headingRegex
  rw [matchAtoms_cons]
  have W := matchAtoms_ws_dot 2
  cases s with
  | nil => simp [longest, backtrack, hMatch, hMatchWith, hashes, List.isPrefixOf, List.replicate]
  | cons c1 r1 =>
    by_cases h1 : c1 = '#'
    · subst h1
      cases r1 with
      | nil =>
        simp [longest, backtrack, W, setGroup, hMatch, hMatchWith, hashes, List.isPrefixOf,
          List.replicate, List.takeWhile, wsRest_hash, wsRest_nil]
      | cons c2 r2 =>
        by_cases h2 : c2 = '#'
        · subst h2
          cases r2 with
          | nil =>
            simp [longest, backtrack, W, setGroup, hMatch, hMatchWith, hashes, List.isPrefixOf,
              List.replicate, List.takeWhile, wsRest_hash, wsRest_nil]
          | cons c3 r3 =>
            by_cases h3 : c3 = '#'
            · subst h3
              have hl : Nat.min (List.takeWhile (fun c => c == '#')
                  ('#' :: '#' :: '#' :: r3)).length 3 = 3 := by
                simp [List.takeWhile]
              simp only [longest, hl]
              simp [backtrack, W, setGroup, hMatch, hMatchWith, hashes, List.isPrefixOf,
                List.replicate, wsRest_hash]
              cases wsRest r3 <;> simp
            · have e3 : (c3 == '#') = false := by simpa using h3
              have e3b : ('#' == c3) = false := by simpa using Ne.symm h3
              simp [longest, backtrack, W, setGroup, hMatch, hMatchWith, hashes,
                List.isPrefixOf, List.replicate, List.takeWhile, wsRest_hash, e3, e3b,
                Ne.symm h3]
              cases wsRest (c3 :: r3) <;> simp
        · have e2 : (c2 == '#') = false := by simpa using h2
          have e2b : ('#' == c2) = false := by simpa using Ne.symm h2
          simp [longest, backtrack, W, setGroup, hMatch, hMatchWith, hashes, List.isPrefixOf,
            List.replicate, List.takeWhile, wsRest_hash, e2, e2b, Ne.symm h2]
          cases wsRest (c2 :: r2) <;> simp
    · have e1 : (c1 == '#') = false := by simpa using h1
      have e1b : ('#' == c1) = false := by simpa using Ne.symm h1
      simp [longest, backtrack, hMatch, hMatchWith, hashes, List.isPrefixOf, List.replicate,
        List.takeWhile, e1, e1b, Ne.symm h1]

/-! ## Termination and totality -/

theorem readGroup_one (a : Option Str) (t : Str) (rest : MatchArray) :
    readGroup (a :: some t :: rest) 1 = some t := by
  simp [readGroup]

theorem readGroup_two (a b : Option Str) (t : Str) (rest : MatchArray) :
    readGroup (a :: b :: some t :: rest) 2 = some t := by
  simp [readGroup]

/-- Every read of a match array in the loop body finds its entry: the
iteration as written, with the generic matcher and checked reads, does what
`step` does. -/
theorem stepChecked_eq_step (st : State) (line : Str) :
    stepChecked st line = some (step st line) := by
  unfold stepChecked step
  simp only [regexMatch_heading, regexMatch_ul, regexMatch_ol]
  split
  · split <;> rfl
  · split
    · rfl
    · split
      · rfl
      · cases hMatch (trim line) with
        | some m =>
          obtain ⟨k, t⟩ := m
          simp [readGroup_one, readGroup_two]
        | none =>
          cases ulMatch (trim line) with
          | some t => simp [readGroup_one]
          | none =>
            cases olMatch (trim line) with
            | some t => simp [readGroup_one]
            | none => simp

/-- The loop by index reads every line once and reaches the end: from index
`i` it returns the fold of the loop body over the lines from `i` on. -/
theorem forLoop_eq_foldl (ls : List Str) :
    ∀ (n i : Nat) (st : State), ls.length - i = n →
      forLoop ls i st = some ((ls.drop i).foldl step st)
  | 0, i, st, h => by
    have hle : ls.length ≤ i := by omega
    rw [forLoop]
    simp [Nat.not_lt.mpr hle, List.drop_eq_nil_of_le hle]
  | n + 1, i, st, h => by
    have hi : i < ls.length := by omega
    rw [forLoop, if_pos hi, List.getElem?_eq_getElem hi]
    simp only [stepChecked_eq_step]
    rw [forLoop_eq_foldl ls n (i + 1) _ (by omega), List.drop_eq_getElem_cons hi]
    rfl

/-- C1: for every input string, `parseContent` run as written terminates
and returns a string, the concatenation of the fragments: the loop by index
never reads outside the array of lines, and in every iteration, from every
state, the reads `hMatch[1]`, `hMatch[2]`, `ulMatch[1]` and `olMatch[1]` find
a captured text in the array the matcher returned; no input reaches the
failing branches. -/
theorem parseContent_total (content : Str) :
    (∀ (st : State) (line : Str), stepChecked st line = some (step st line)) ∧
      parseContentLoop content = some (parseContent content) := by
  refine ⟨stepChecked_eq_step, ?_⟩
  unfold parseContentLoop
  rw [forLoop_eq_foldl (lines content) _ 0 initState rfl]
  rfl

end Blog
